import Mathlib

/-!
Verification development for the Yomicord dictionary engine
(src/plugins/yomicord/dictionary.ts).

The TypeScript module is embedded shallowly:

* JavaScript strings are lists of UTF-16 code units (`Str := List Nat`);
  all characters relevant to the engine are in the BMP, so one unit is
  one character.
* The persistent key/value DataStore is an insertion-ordered association
  list from key strings to stored values (a bucket object or the
  dictionary index object).  JavaScript `Map` objects and plain objects
  used as dictionaries are modelled the same way; `set` on an existing
  key updates the value in place (keeping the original insertion
  position, as in JavaScript), `set` on a new key appends.
* Asynchronous code is sequentialized in program order: each `await`ed
  fetch is an explicit state-passing call.  `Date.now()` is a single
  constant `now` during one engine call.  Every `DataStore.get` is
  recorded in a read log so that theorems can speak about store reads.
* The external deinflection capability (language-transformer /
  japanese-transforms, which are not part of this repository) is a
  parameter `transform : Str -> List Str` per the consumed contract
  `transform(text) -> list of { text }`.
-/

set_option synthInstance.maxSize 4096

namespace Yomicord

/-- A UTF-16 code unit of a JavaScript string. -/
abbrev JChar := Nat

/-- A JavaScript string, as its list of UTF-16 code units. -/
abbrev Str := List JChar

/-- Code-unit list of a Lean string literal (BMP only). -/
def jstr (s : String) : Str := s.data.map (fun c => c.toNat)

/-- The code unit of the vertical bar, used by the engine in dedup keys. -/
def barChar : JChar := 124

/-- The code unit of the underscore, used in DataStore key namespacing. -/
def uscChar : JChar := 95

/-- DictionaryEntry from dictionary.ts: term, reading, definitions, tags,
score and the optional dictionary name that lookupTerm attaches. -/
structure DictionaryEntry where
  term : Str
  reading : Str
  definitions : List Str
  tags : List Str
  score : Int
  dictionary : Option Str := none
deriving DecidableEq

/-- DictionaryMetadata from dictionary.ts. -/
structure DictionaryMetadata where
  title : Str
  revision : Str
  sequenced : Bool
deriving DecidableEq

/-- A stored bucket: an object mapping an index key (a term or a reading)
to the insertion-ordered list of entries stored under that key. -/
abbrev Bucket := List (Str × List DictionaryEntry)

/-- The dictionary index object: dictionary name to metadata. -/
abbrev DictIndex := List (Str × DictionaryMetadata)

/-- A value held by the DataStore: either a bucket object or the
dictionary index object. -/
inductive StoreVal where
  | bucket (b : Bucket)
  | index (i : DictIndex)
deriving DecidableEq

/-- The external key/value store, insertion ordered. -/
abbrev Store := List (Str × StoreVal)

/-- Association-list read, first binding wins (JavaScript object/Map get). -/
def mapGet {K V : Type} [DecidableEq K] : List (K × V) → K → Option V
  | [], _ => none
  | (k', v) :: rest, k => if k' = k then some v else mapGet rest k

/-- Association-list write: updates an existing key in place (keeping its
insertion position, as JavaScript Map.set and object assignment do) or
appends a new binding at the end. -/
def mapSet {K V : Type} [DecidableEq K] : List (K × V) → K → V → List (K × V)
  | [], k, v => [(k, v)]
  | (k', v') :: rest, k, v =>
    if k' = k then (k, v) :: rest else (k', v') :: mapSet rest k v

/-- Removal of a key (JavaScript delete / Map.delete). -/
def mapRemove {K V : Type} [DecidableEq K] (m : List (K × V)) (k : K) :
    List (K × V) :=
  m.filter (fun kv => decide (kv.1 ≠ k))

/-- DataStore.get. -/
def dsGet (s : Store) (k : Str) : Option StoreVal := mapGet s k

/-- DataStore.set. -/
def dsSet (s : Store) (k : Str) (v : StoreVal) : Store := mapSet s k v

/-- DataStore.keys. -/
def dsKeys (s : Store) : List Str := s.map (fun kv => kv.1)

/-- DataStore.delMany. -/
def dsDelMany (s : Store) (ks : List Str) : Store :=
  s.filter (fun kv => decide (kv.1 ∉ ks))

/-- The DICTIONARY_KEY constant. -/
def DICTIONARY_KEY : Str := jstr "Yomicord_Dictionaries"

/-- The DICTIONARY_INDEX_KEY constant. -/
def DICTIONARY_INDEX_KEY : Str := jstr "Yomicord_Dictionary_Index"

/-- DataStore key of the bucket of a dictionary and a leading character. -/
def bucketKey (dictionaryName : Str) (firstChar : JChar) : Str :=
  DICTIONARY_KEY ++ [uscChar] ++ dictionaryName ++ [uscChar] ++ [firstChar]

/-- Test for a CJK unified ideograph, the regex [一-鿿]. -/
def isKanjiChar (c : JChar) : Bool := decide (0x4E00 ≤ c ∧ c ≤ 0x9FFF)

/-- Test whether a string contains a kanji character. -/
def containsKanji (s : Str) : Bool := s.any isKanjiChar

/-- Character-wise katakana-to-hiragana mapping of
convertKatakanaToHiragana: code units 0x30A1-0x30F6 are shifted down by
0x60, everything else is unchanged. -/
def kataToHira (c : JChar) : JChar :=
  if 0x30A1 ≤ c ∧ c ≤ 0x30F6 then c - 0x60 else c

/-- convertKatakanaToHiragana from dictionary.ts. -/
def convertKatakanaToHiragana (s : Str) : Str := s.map kataToHira

/-- getCommonPrefix from dictionary.ts: the longest common leading
substring of two strings. -/
def getCommonPrefix : Str → Str → Str
  | a :: t1, b :: t2 => if a = b then a :: getCommonPrefix t1 t2 else []
  | _, _ => []

/-- A cache record: a value together with its insertion timestamp. -/
structure CacheRec (V : Type) where
  value : V
  timestamp : Int
deriving DecidableEq

/-- The bucket cache (dataStoreCache in dictionary.ts), keyed by
dictionaryName_firstChar strings, insertion ordered. -/
abbrev BucketCache := List (Str × CacheRec (Option Bucket))

/-- The result cache (searchCache in dictionary.ts), keyed by the raw
query string, insertion ordered. -/
abbrev SearchCache := List (Str × CacheRec (List DictionaryEntry))

/-- The engine environment threaded through one lookup: the immutable
store, the bucket cache, a log of every DataStore.get key in order, and
the current clock value. -/
structure Env where
  store : Store
  bucketCache : BucketCache
  readLog : List Str
  now : Int
deriving DecidableEq

/-- DATASTORE_CACHE_TTL (10 seconds). -/
def DATASTORE_CACHE_TTL : Int := 10000

/-- Reads a stored value as a bucket; a missing or non-bucket value is
`none` (the program only ever stores buckets at bucket keys). -/
def toBucket : Option StoreVal → Option Bucket
  | some (.bucket b) => some b
  | _ => none

/-- The miss path of getDataStoreData: fetch from the DataStore, cache
the result (even an absent one) with the current timestamp, and evict the
single oldest-inserted record when the cache afterwards holds more than
50 records. -/
def getDataStoreDataMiss (env : Env) (dictionaryName : Str)
    (firstChar : JChar) : Option Bucket × Env :=
  let cacheKey := dictionaryName ++ [uscChar] ++ [firstChar]
  let dataKey := bucketKey dictionaryName firstChar
  let data := toBucket (dsGet env.store dataKey)
  let cache1 := mapSet env.bucketCache cacheKey ⟨data, env.now⟩
  let cache2 := if 50 < cache1.length then cache1.tail else cache1
  (data, { env with bucketCache := cache2, readLog := env.readLog ++ [dataKey] })

/-- getDataStoreData from dictionary.ts: the bucket-cache wrapper around
DataStore.get, with a 10 s TTL and capacity 50. -/
def getDataStoreData (env : Env) (dictionaryName : Str) (firstChar : JChar) :
    Option Bucket × Env :=
  let cacheKey := dictionaryName ++ [uscChar] ++ [firstChar]
  match mapGet env.bucketCache cacheKey with
  | some cached =>
    if env.now - cached.timestamp < DATASTORE_CACHE_TTL then (cached.value, env)
    else getDataStoreDataMiss env dictionaryName firstChar
  | none => getDataStoreDataMiss env dictionaryName firstChar

/-- The matchType argument of searchInDictionary. -/
inductive MatchType where
  | exact
  | prefixMatch
deriving DecidableEq

/-- One step of the local term-reading dedup used inside
searchInDictionary and the import merge: push the entry unless its
term-bar-reading key was seen. -/
def dedupPush (acc : List Str × List DictionaryEntry) (e : DictionaryEntry) :
    List Str × List DictionaryEntry :=
  let key := e.term ++ [barChar] ++ e.reading
  if key ∈ acc.1 then acc else (acc.1 ++ [key], acc.2 ++ [e])

/-- searchInDictionary from dictionary.ts.  In exact mode the bucket of
the leading character is fetched and only the entries stored under the
searched key are considered, keeping those whose term or reading equals
the search string.  In the (unused by lookupTerm) general mode every
entry of the bucket is scanned for a term or reading that starts with
the search string.  Results are deduplicated by term-bar-reading. -/
def searchInDictionary (env : Env) (dictionaryName : Str) (term : Str)
    (matchType : MatchType) : List DictionaryEntry × Env :=
  match term with
  | [] => ([], env)
  | c0 :: _ =>
    let fetched := getDataStoreData env dictionaryName c0
    match fetched.1 with
    | none => ([], fetched.2)
    | some bucket =>
      match matchType with
      | .exact =>
        match mapGet bucket term with
        | none => ([], fetched.2)
        | some entries =>
          let step := fun (acc : List Str × List DictionaryEntry) e =>
            if e.term = term ∨ (e.reading ≠ [] ∧ e.reading = term) then
              dedupPush acc e
            else acc
          ((entries.foldl step ([], [])).2, fetched.2)
      | .prefixMatch =>
        let step := fun (acc : List Str × List DictionaryEntry) e =>
          if term <+: e.term ∨ (e.reading ≠ [] ∧ term <+: e.reading) then
            dedupPush acc e
          else acc
        ((bucket.foldl (fun acc kv => kv.2.foldl step acc) ([], [])).2,
          fetched.2)

/-- findAllReadingsForTerm from dictionary.ts: the exact-mode search
filtered to entries whose term equals the searched term. -/
def findAllReadingsForTerm (env : Env) (dictionaryName term : Str) :
    List DictionaryEntry × Env :=
  let r := searchInDictionary env dictionaryName term .exact
  (r.1.filter (fun e => decide (e.term = term)), r.2)

/-- Stable insertion of an element into a list sorted by a boolean
comparator: the element goes in front of the first position it is
less-or-equal to. -/
def insertSorted {α : Type} (le : α → α → Bool) (a : α) : List α → List α
  | [] => [a]
  | b :: l => if le a b then a :: b :: l else b :: insertSorted le a l

/-- Stable comparator sort, modelling JavaScript Array.prototype.sort
(which is specified to be stable; for a consistent comparator every
stable sort produces the same output). -/
def sortBy {α : Type} (le : α → α → Bool) : List α → List α
  | [] => []
  | a :: l => insertSorted le a (sortBy le l)

/-- The accumulator of searchByPartialReading: recorded (entry, score)
pairs in record order, and the seen-key set. -/
structure PartialAcc where
  scored : List (DictionaryEntry × Int)
  seen : List Str
deriving DecidableEq

/-- The per-entry step of searchByPartialReading at a given normalized
search string and prefix length. -/
def partialReadingStep (minMatchLength : Nat) (pfx : Str)
    (prefixLength : Nat) (acc : PartialAcc) (e : DictionaryEntry) :
    PartialAcc :=
  let entryKey := e.term ++ [barChar] ++ e.reading
  if entryKey ∈ acc.seen then acc
  else
    let entryReading := convertKatakanaToHiragana e.reading
    let common := getCommonPrefix pfx entryReading
    if minMatchLength ≤ common.length then
      { scored := acc.scored ++
          [(e, (common.length : Int) * 1000 + (prefixLength : Int))],
        seen := acc.seen ++ [entryKey] }
    else acc

/-- The descending prefix-length loop of searchByPartialReading.  The
fuel is the current prefix length; the loop body runs while the prefix
length is at least minMatchLength and never stops early, collecting
matches from every length. -/
def searchByPartialReadingLoop (dict : Str) (searchReading : Str)
    (minMatchLength : Nat) :
    Nat → PartialAcc → Env → PartialAcc × Env
  | 0, acc, env => (acc, env)
  | pl + 1, acc, env =>
    if pl + 1 < minMatchLength then (acc, env)
    else
      let pfx := searchReading.take (pl + 1)
      let fetched := getDataStoreData env dict (searchReading.headD 0)
      let acc' :=
        match fetched.1 with
        | none => acc
        | some bucket =>
          bucket.foldl
            (fun acc kv =>
              kv.2.foldl (partialReadingStep minMatchLength pfx (pl + 1)) acc)
            acc
      searchByPartialReadingLoop dict searchReading minMatchLength pl acc'
        fetched.2

/-- searchByPartialReading from dictionary.ts, kept with its internal
relevance scores: normalize the query, return empty when shorter than
minMatchLength, otherwise accumulate over all prefix lengths and sort by
score descending. -/
def searchByPartialReadingScored (env : Env) (dict : Str)
    (searchTerm : Str) (minMatchLength : Nat) :
    List (DictionaryEntry × Int) × Env :=
  let searchReading := convertKatakanaToHiragana searchTerm
  if searchReading.length < minMatchLength then ([], env)
  else
    let r := searchByPartialReadingLoop dict searchReading minMatchLength
      searchReading.length ⟨[], []⟩ env
    (sortBy (fun a b => decide (b.2 ≤ a.2)) r.1.scored, r.2)

/-- searchByPartialReading as exported: the scored search with the
scores dropped. -/
def searchByPartialReading (env : Env) (dict : Str) (searchTerm : Str)
    (minMatchLength : Nat) : List DictionaryEntry × Env :=
  let r := searchByPartialReadingScored env dict searchTerm minMatchLength
  (r.1.map (fun p => p.1), r.2)

/-- getDeinflectionCandidates from dictionary.ts, parametrized by the
external transformer: the original text first, then each transformer
result text that differs from the original and was not already present. -/
def getDeinflectionCandidates (transform : Str → List Str) (text : Str) :
    List Str :=
  (transform text).foldl
    (fun cands r => if r ≠ text ∧ r ∉ cands then cands ++ [r] else cands)
    [text]

/-- Insertion-ordered set union used for the allDeinflections set. -/
def addNewStrs (acc : List Str) (xs : List Str) : List Str :=
  xs.foldl (fun acc x => if x ∈ acc then acc else acc ++ [x]) acc

/-- One tagged match of the progressive substring loop
(resultsWithLength element): the entry (with its dictionary attached),
the substring length it was found at, whether it came from the
deinflection pass, and whether the match was exact. -/
structure RWL where
  entry : DictionaryEntry
  originalTextLength : Nat
  fromDeinflection : Bool
  readingExactMatch : Bool
deriving DecidableEq

/-- The mutable state of one lookupTerm call: the tagged matches, the
dictionary-bar-term-bar-reading seen set, the set of kanji terms already
expanded, the running maximum match length, and (for verification) the
list of substring lengths whose loop iteration has started. -/
structure LState where
  rwl : List RWL
  seen : List Str
  kanjiSearched : List Str
  maxLen : Nat
  trace : List Nat
deriving DecidableEq

/-- The initial lookup state. -/
def initLState : LState := ⟨[], [], [], 0, []⟩

/-- The dedup key dictionary-bar-term-bar-reading used by lookupTerm. -/
def seenKey (dictName : Str) (e : DictionaryEntry) : Str :=
  dictName ++ [barChar] ++ e.term ++ [barChar] ++ e.reading

/-- The seen key an already-recorded match was stored under. -/
def rkey (r : RWL) : Str :=
  (r.entry.dictionary.getD []) ++ [barChar] ++ r.entry.term ++ [barChar] ++
    r.entry.reading

/-- The shared push guarded by the seen set: record the entry (tagged
with the dictionary) unless its key was seen; returns the new state and
whether a record was added. -/
def pushRecord (st : LState) (dictName : Str) (e : DictionaryEntry)
    (len : Nat) (deinfl exact : Bool) : LState × Bool :=
  let key := seenKey dictName e
  if key ∈ st.seen then (st, false)
  else
    ({ st with
        rwl := st.rwl ++ [⟨{ e with dictionary := some dictName }, len, deinfl, exact⟩],
        seen := st.seen ++ [key],
        maxLen := max st.maxLen len }, true)

/-- searchAllReadingsForTerm from lookupTerm: for a kanji term not yet
expanded, fetch from every installed dictionary all entries sharing that
exact term and record each unseen one at the given length, marking it
exact when its reading has exactly that length and equals the query
substring of that length. -/
def searchAllReadingsForTerm (env : Env) (st : LState) (index : DictIndex)
    (text : Str) (kanjiTerm : Str) (originalTextLength : Nat) :
    Env × LState :=
  if kanjiTerm ∈ st.kanjiSearched then (env, st)
  else
    let st1 := { st with kanjiSearched := st.kanjiSearched ++ [kanjiTerm] }
    index.foldl
      (fun (acc : Env × LState) d =>
        let fetched := findAllReadingsForTerm acc.1 d.1 kanjiTerm
        fetched.1.foldl
          (fun (acc2 : Env × LState) e =>
            let exact := decide (e.reading ≠ [] ∧
              e.reading.length = originalTextLength ∧
              text.take originalTextLength = e.reading)
            (acc2.1,
              (pushRecord acc2.2 d.1 e originalTextLength false exact).1))
          (fetched.2, acc.2))
      (env, st1)

/-- The parallel exact-search fan-out of one loop iteration: for every
variant and every installed dictionary, in that order, the exact-mode
search result together with its dictionary and variant. -/
def exactFetch (env : Env) (dictNames : List Str) (variants : List Str) :
    List (Str × List DictionaryEntry × Str) × Env :=
  variants.foldl
    (fun (acc : List (Str × List DictionaryEntry × Str) × Env) variant =>
      dictNames.foldl
        (fun (acc2 : List (Str × List DictionaryEntry × Str) × Env) dictName =>
          let r := searchInDictionary acc2.2 dictName variant .exact
          (acc2.1 ++ [(dictName, r.1, variant)], r.2))
        acc)
    ([], env)

/-- Processing of a single entry of the exact pass: the kanji branch
matches on term equality or reading equality-or-extension, the kana
branch on term equality or term extension; an added kanji match
triggers the cross-reading expansion when the query contains kanji. -/
def processExactEntry (index : DictIndex) (text searchText searchHira : Str)
    (hasKanji : Bool) (L : Nat) (dictName variant : Str)
    (acc : Env × LState × Bool) (e : DictionaryEntry) :
    Env × LState × Bool :=
  let env := acc.1
  let st := acc.2.1
  let found := acc.2.2
  let isExact := decide ((e.term = searchText ∨ e.term = searchHira) ∨
    (e.reading ≠ [] ∧ (e.reading = searchText ∨ e.reading = searchHira)))
  if containsKanji e.term then
    if e.term = variant ∨
        (e.reading ≠ [] ∧ (e.reading = variant ∨ variant <+: e.reading)) then
      let pushed := pushRecord st dictName e L false isExact
      let found' := found || pushed.2
      if pushed.2 && hasKanji then
        let expanded := searchAllReadingsForTerm env pushed.1 index text
          e.term L
        (expanded.1, expanded.2, found')
      else (env, pushed.1, found')
    else acc
  else
    if e.term = variant ∨ (variant <+: e.term ∧ variant.length ≤ e.term.length) then
      let pushed := pushRecord st dictName e L false isExact
      (env, pushed.1, found || pushed.2)
    else acc

/-- The exact pass of one loop iteration over the fetched fan-out. -/
def processExactResults (index : DictIndex) (text searchText searchHira : Str)
    (hasKanji : Bool) (L : Nat) (init : Env × LState × Bool)
    (items : List (Str × List DictionaryEntry × Str)) :
    Env × LState × Bool :=
  items.foldl
    (fun acc item =>
      item.2.1.foldl
        (processExactEntry index text searchText searchHira hasKanji L
          item.1 item.2.2)
        acc)
    init

/-- The skip test of lookupTerm: skip the deinflection pass at this
length when the length is at least 4, something was found at this
length, and some recorded match at this length is exact and not from
deinflection. -/
def shouldSkipDeinflections (st : LState) (L : Nat) (found : Bool) : Bool :=
  decide (4 ≤ L) && found &&
    decide (0 < (st.rwl.filter (fun r =>
      decide (r.originalTextLength = L) && r.readingExactMatch &&
        !r.fromDeinflection)).length)

/-- Processing of a single entry of the deinflection pass: matches on
term or reading equality with the deinflected candidate, records the
match as from-deinflection, and triggers the cross-reading expansion for
added kanji matches. -/
def processDeinflectEntry (index : DictIndex) (text : Str) (hasKanji : Bool)
    (L : Nat) (dictName deinflected : Str) (acc : Env × LState × Bool)
    (e : DictionaryEntry) : Env × LState × Bool :=
  let env := acc.1
  let st := acc.2.1
  let found := acc.2.2
  let termMatches := decide (e.term = deinflected)
  let readingMatches := decide (e.reading ≠ [] ∧ e.reading = deinflected)
  if !termMatches && !readingMatches then acc
  else
    let exact := decide (e.reading ≠ [] ∧ e.reading = deinflected)
    let pushed := pushRecord st dictName e L true exact
    let found' := found || pushed.2
    if pushed.2 && hasKanji && containsKanji e.term &&
        decide (e.term = deinflected ∨ e.reading = deinflected) then
      let expanded := searchAllReadingsForTerm env pushed.1 index text
        e.term L
      (expanded.1, expanded.2, found')
    else (env, pushed.1, found')

/-- The deinflection pass of one loop iteration: build the deduplicated
candidate set from every variant, and for every candidate that is not
itself a variant run the exact search over all dictionaries and process
the matches. -/
def deinflectPass (transform : Str → List Str) (index : DictIndex)
    (dictNames : List Str) (text : Str) (hasKanji : Bool) (L : Nat)
    (variants : List Str) (acc0 : Env × LState × Bool) :
    Env × LState × Bool :=
  let allDeinf := variants.foldl
    (fun acc v => addNewStrs acc (getDeinflectionCandidates transform v)) []
  allDeinf.foldl
    (fun acc deinflected =>
      if deinflected ∈ variants then acc
      else
        let fetched := dictNames.foldl
          (fun (a : List (Str × List DictionaryEntry) × Env) dictName =>
            let r := searchInDictionary a.2 dictName deinflected .exact
            (a.1 ++ [(dictName, r.1)], r.2))
          ([], acc.1)
        fetched.1.foldl
          (fun acc2 item =>
            item.2.foldl
              (processDeinflectEntry index text hasKanji L item.1 deinflected)
              acc2)
          (fetched.2, acc.2.1, acc.2.2))
    acc0

/-- The early-termination condition checked after processing a length:
the length is at most 2 and a match of length at least 3 exists. -/
def earlyExit (st : LState) (L : Nat) : Bool :=
  decide (L ≤ 2) && decide (3 ≤ st.maxLen)

/-- One iteration of the progressive substring loop at a given length:
record the length in the trace, build the variants (the substring and,
when different, its hiragana form), run the exact pass, the skip test,
then unless skipped the deinflection pass, and report the
early-termination flag. -/
def loopIter (transform : Str → List Str) (env : Env) (index : DictIndex)
    (dictNames : List Str) (text : Str) (hasKanji : Bool) (st : LState)
    (L : Nat) : Env × LState × Bool :=
  let st0 := { st with trace := st.trace ++ [L] }
  let searchText := text.take L
  let searchHira := convertKatakanaToHiragana searchText
  let variants := if searchText = searchHira then [searchText]
    else [searchText, searchHira]
  let fetched := exactFetch env dictNames variants
  let afterExact := processExactResults index text searchText searchHira
    hasKanji L (fetched.2, st0, false) fetched.1
  let skip := shouldSkipDeinflections afterExact.2.1 L afterExact.2.2
  let post :=
    if skip then afterExact
    else deinflectPass transform index dictNames text hasKanji L variants
      afterExact
  (post.1, post.2.1, earlyExit post.2.1 L)

/-- The progressive substring loop, from the full text length down to 1,
stopping early when an iteration reports the early-exit flag. -/
def lookupLoop (transform : Str → List Str) (index : DictIndex)
    (dictNames : List Str) (text : Str) (hasKanji : Bool) :
    Nat → Env → LState → Env × LState
  | 0, env, st => (env, st)
  | L + 1, env, st =>
    let r := loopIter transform env index dictNames text hasKanji st (L + 1)
    if r.2.2 then (r.1, r.2.1)
    else lookupLoop transform index dictNames text hasKanji L r.1 r.2.1

/-- Insertion-ordered deduplication of a list of numbers (a JavaScript
Set built by iteration). -/
def dedupNats (l : List Nat) : List Nat :=
  l.foldl (fun acc x => if x ∈ acc then acc else acc ++ [x]) []

/-- Descending numeric sort (the comparator (a, b) => b - a). -/
def sortDescNat (l : List Nat) : List Nat :=
  sortBy (fun a b => decide (b ≤ a)) l

/-- The grouping stage of the filter-and-rank pipeline, on the tagged
match records.  With exact matches present: keep every length that has
an exact match, in descending order, listing the exact matches of each
length before the non-exact ones.  Without exact matches: keep all
lengths in descending order, dropping length 1 when several lengths
occurred and the longest is above 1. -/
def groupedRecords (rwl : List RWL) : List RWL :=
  let exacts := rwl.filter (fun r => r.readingExactMatch)
  if exacts.isEmpty then
    let lens := sortDescNat (dedupNats (rwl.map (fun r => r.originalTextLength)))
    let meaningful := lens.filter (fun len =>
      decide (¬ (len = 1 ∧ 1 < lens.length ∧ 1 < lens.headD 0)))
    meaningful.flatMap (fun ℓ =>
      rwl.filter (fun r => decide (r.originalTextLength = ℓ)))
  else
    let lens := sortDescNat
      (dedupNats (exacts.map (fun r => r.originalTextLength)))
    lens.flatMap (fun ℓ =>
      let atLen := rwl.filter (fun r => decide (r.originalTextLength = ℓ))
      atLen.filter (fun r => r.readingExactMatch) ++
        atLen.filter (fun r => !r.readingExactMatch))

/-- The info-reattachment step before the final sort: each kept entry is
paired with the tags of the first recorded match sharing its term and
reading (falling back to length 0 and false flags when none is found). -/
def attachInfo (rwl : List RWL) (e : DictionaryEntry) : RWL :=
  match rwl.find? (fun r =>
      decide (r.entry.term = e.term ∧ r.entry.reading = e.reading)) with
  | some r => ⟨e, r.originalTextLength, r.fromDeinflection, r.readingExactMatch⟩
  | none => ⟨e, 0, false, false⟩

/-- Whether an entry has a reading that differs from its term (a falsy
empty reading counts as no reading). -/
def hasReadingB (e : DictionaryEntry) : Bool :=
  decide (e.reading ≠ [] ∧ e.reading ≠ e.term)

/-- The final comparator of lookupTerm (negative means the first
argument sorts first): exact match, then length descending, then
has-reading, then from-deinflection, then shorter term on an identical
non-empty reading, then reading equal to the query substring taken at
the first argument length, then score descending. -/
def codeCmp (text : Str) (a b : RWL) : Int :=
  if a.readingExactMatch && !b.readingExactMatch then -1
  else if !a.readingExactMatch && b.readingExactMatch then 1
  else if a.originalTextLength ≠ b.originalTextLength then
    (b.originalTextLength : Int) - (a.originalTextLength : Int)
  else if hasReadingB a.entry && !hasReadingB b.entry then -1
  else if !(hasReadingB a.entry) && hasReadingB b.entry then 1
  else if a.fromDeinflection && !b.fromDeinflection then -1
  else if !a.fromDeinflection && b.fromDeinflection then 1
  else if a.entry.reading ≠ [] ∧ b.entry.reading ≠ [] ∧
      a.entry.reading = b.entry.reading ∧
      a.entry.term.length ≠ b.entry.term.length then
    (a.entry.term.length : Int) - (b.entry.term.length : Int)
  else
    if (a.entry.reading ≠ [] ∧
          a.entry.reading = text.take a.originalTextLength) ∧
        ¬ (b.entry.reading ≠ [] ∧
          b.entry.reading = text.take a.originalTextLength) then -1
    else if ¬ (a.entry.reading ≠ [] ∧
          a.entry.reading = text.take a.originalTextLength) ∧
        (b.entry.reading ≠ [] ∧
          b.entry.reading = text.take a.originalTextLength) then 1
    else b.entry.score - a.entry.score

/-- The boolean less-or-equal of the final comparator. -/
def codeLe (text : Str) (a b : RWL) : Bool := decide (codeCmp text a b ≤ 0)

/-- The filter-and-rank pipeline on tagged records: group, reattach
info, and sort with the final comparator. -/
def filterRankInfos (text : Str) (rwl : List RWL) : List RWL :=
  let grouped := groupedRecords rwl
  let infos := grouped.map (fun r => attachInfo rwl r.entry)
  sortBy (codeLe text) infos

/-- CACHE_TTL of the result cache (5 seconds). -/
def CACHE_TTL : Int := 5000

/-- MAX_CACHE_SIZE of the result cache. -/
def MAX_CACHE_SIZE : Nat := 100

/-- Reading of the dictionary index object from the DataStore inside a
lookup, logging the read. -/
def getDictionaryIndexE (env : Env) : DictIndex × Env :=
  let idx := match dsGet env.store DICTIONARY_INDEX_KEY with
    | some (.index i) => i
    | _ => []
  (idx, { env with readLog := env.readLog ++ [DICTIONARY_INDEX_KEY] })

/-- The first-character pre-fetch of lookupTerm, warming the bucket
cache for every installed dictionary. -/
def prefetch (env : Env) (dictNames : List Str) (c : JChar) : Env :=
  dictNames.foldl (fun env d => (getDataStoreData env d c).2) env

/-- The setup stage of a lookup on a result-cache miss: read the
dictionary index and pre-fetch the buckets of the first character. -/
def lookupSetup (env : Env) (text : Str) : DictIndex × Env :=
  let r := getDictionaryIndexE env
  (r.1, prefetch r.2 (r.1.map (fun d => d.1)) (text.headD 0))

/-- The setup plus the full progressive substring loop of a lookup. -/
def lookupLoopRun (transform : Str → List Str) (env : Env) (text : Str) :
    DictIndex × Env × LState :=
  let s := lookupSetup env text
  let r := lookupLoop transform s.1 (s.1.map (fun d => d.1)) text
    (containsKanji text) text.length s.2 initLState
  (s.1, r.1, r.2)

/-- The ranked info records a lookup produces on the main path. -/
def lookupMainInfos (transform : Str → List Str) (env : Env) (text : Str) :
    List RWL :=
  filterRankInfos text (lookupLoopRun transform env text).2.2.rwl

/-- The entry list a lookup returns on the main path. -/
def lookupMainResults (transform : Str → List Str) (env : Env) (text : Str) :
    List DictionaryEntry :=
  (lookupMainInfos transform env text).map (fun r => r.entry)

/-- Processing of one partial-reading fallback candidate: accept it when
unseen and its raw reading equals the raw query, extends it, or is
extended by it; an accepted kanji entry triggers the cross-reading
expansion (whose records go to the dead tagged-match list, though its
seen-set updates persist). -/
def fallbackEntry (index : DictIndex) (text : Str) (hasKanji : Bool)
    (dictName : Str) (acc : Env × LState × List DictionaryEntry)
    (e : DictionaryEntry) : Env × LState × List DictionaryEntry :=
  let env := acc.1
  let st := acc.2.1
  let results := acc.2.2
  let key := seenKey dictName e
  if key ∈ st.seen then acc
  else
    if e.reading ≠ [] ∧
        (e.reading = text ∨ text <+: e.reading ∨ e.reading <+: text) then
      let results' := results ++ [{ e with dictionary := some dictName }]
      let st' := { st with seen := st.seen ++ [key] }
      if hasKanji && containsKanji e.term then
        let expanded := searchAllReadingsForTerm env st' index text e.term
          text.length
        (expanded.1, expanded.2, results')
      else (env, st', results')
    else acc

/-- The partial-reading fallback pass over every installed dictionary. -/
def fallbackPass (env : Env) (index : DictIndex) (text : Str)
    (hasKanji : Bool) (st : LState) :
    Env × LState × List DictionaryEntry :=
  index.foldl
    (fun (acc : Env × LState × List DictionaryEntry) d =>
      let pm := searchByPartialReading acc.1 d.1 text 2
      pm.1.foldl (fallbackEntry index text hasKanji d.1)
        (pm.2, acc.2.1, acc.2.2))
    (env, st, [])

/-- The final fallback-path sort comparator: score descending. -/
def scoreLe (a b : DictionaryEntry) : Bool := decide (b.score ≤ a.score)

/-- The fallback stage of a lookup whose ranked main list is empty: run
the partial-reading fallback when the query has length at least 2,
otherwise leave the accepted list empty. -/
def lookupFallbackStage (env1 : Env) (index : DictIndex) (text : Str)
    (st : LState) : Env × LState × List DictionaryEntry :=
  if 2 ≤ text.length then fallbackPass env1 index text (containsKanji text) st
  else (env1, st, [])

/-- The body of lookupTerm on a result-cache miss: run the loop and the
filter-and-rank pipeline; a non-empty ranked list is returned directly
without touching the result cache, otherwise the partial-reading
fallback runs (for queries of length at least 2), its accepted entries
are sorted by score descending, and that final list (possibly empty) is
stored in the result cache keyed by the raw query. -/
def lookupProceed (transform : Str → List Str) (searchCache : SearchCache)
    (env : Env) (text : Str) :
    List DictionaryEntry × SearchCache × Env :=
  let run := lookupLoopRun transform env text
  let results := (filterRankInfos text run.2.2.rwl).map (fun r => r.entry)
  if results.isEmpty then
    let fb := lookupFallbackStage run.2.1 run.1 text run.2.2
    let final := sortBy scoreLe fb.2.2
    let sc1 := if MAX_CACHE_SIZE ≤ searchCache.length then searchCache.tail
      else searchCache
    (final, mapSet sc1 text ⟨final, fb.1.now⟩, fb.1)
  else (results, searchCache, run.2.1)

/-- lookupTerm from dictionary.ts: return a fresh cached result list
verbatim, otherwise run the full lookup. -/
def lookupTerm (transform : Str → List Str) (searchCache : SearchCache)
    (env : Env) (text : Str) :
    List DictionaryEntry × SearchCache × Env :=
  match mapGet searchCache text with
  | some cached =>
    if env.now - cached.timestamp < CACHE_TTL then
      (cached.value, searchCache, env)
    else lookupProceed transform searchCache env text
  | none => lookupProceed transform searchCache env text

/-- A raw Yomichan term-bank record, the fixed-position tuple
(term, reading, definitionTags, ruleIdentifiers, score, definitions,
sequence, termTags).  A missing or empty (falsy) reading is the empty
string; definitions are modelled in already-array form (the
Array.isArray branch of processTermBank). -/
structure RawRecord where
  term : Str
  reading : Str
  defTags : Str
  rules : Str
  score : Int
  definitions : List Str
  sequence : Int
  termTags : List Str
deriving DecidableEq

/-- The DictionaryEntry built from a raw record by processTermBank:
the reading defaults to the term when falsy, the score to itself (the
JavaScript score-or-zero is the identity on integers), and no dictionary
field is stored. -/
def buildEntry (r : RawRecord) : DictionaryEntry :=
  { term := r.term
    reading := if r.reading.isEmpty then r.term else r.reading
    definitions := r.definitions
    tags := r.termTags
    score := r.score
    dictionary := none }

/-- The in-memory staging map of processTermBank: leading character to
bucket object. -/
abbrev Grouped := List (JChar × Bucket)

/-- Insertion of one entry into the staging map under a leading
character and an index key. -/
def groupInsert (g : Grouped) (c : JChar) (key : Str) (e : DictionaryEntry) :
    Grouped :=
  let b := (mapGet g c).getD []
  let lst := (mapGet b key).getD []
  mapSet g c (mapSet b key (lst ++ [e]))

/-- Staging of one raw record: index the built entry under its term
first character by the term key and, when the raw reading is non-empty
and differs from the term, also under the reading first character by the
reading key. -/
def processRecord (g : Grouped) (r : RawRecord) : Grouped :=
  let e := buildEntry r
  let g1 := groupInsert g (r.term.headD 0) r.term e
  if r.reading ≠ [] ∧ r.reading ≠ r.term then
    groupInsert g1 (r.reading.headD 0) r.reading e
  else g1

/-- The bucket merge of processTermBank: starting from the existing
bucket, each incoming key either combines with the existing list (the
existing entries first, then the new ones, deduplicated by
term-bar-reading) or is assigned as a new key. -/
def mergeBucket (existing : Bucket) (incoming : Bucket) : Bucket :=
  incoming.foldl
    (fun merged kv =>
      match mapGet merged kv.1 with
      | some existingEntries =>
        mapSet merged kv.1 (((existingEntries ++ kv.2).foldl dedupPush ([], [])).2)
      | none => mapSet merged kv.1 kv.2)
    existing

/-- processTermBank from dictionary.ts: stage every record by leading
character, then merge each staged bucket with the stored one and write
it back. -/
def processTermBank (store : Store) (dictionaryName : Str)
    (termBank : List RawRecord) : Store :=
  let grouped := termBank.foldl processRecord []
  grouped.foldl
    (fun store cg =>
      let key := bucketKey dictionaryName cg.1
      let existing := (toBucket (dsGet store key)).getD []
      dsSet store key (.bucket (mergeBucket existing cg.2)))
    store

/-- Reading of the dictionary index object directly from a store
(getDictionaryIndex). -/
def getDictionaryIndexS (s : Store) : DictIndex :=
  match dsGet s DICTIONARY_INDEX_KEY with
  | some (.index i) => i
  | _ => []

/-- The namespace of the bucket keys of one dictionary. -/
def dictKeySpace (dictionaryName : Str) : Str :=
  DICTIONARY_KEY ++ [uscChar] ++ dictionaryName ++ [uscChar]

/-- deleteDictionary from dictionary.ts: remove the name from the
dictionary index, then delete every stored key that starts with the
namespace of that dictionary. -/
def deleteDictionary (s : Store) (dictionaryName : Str) : Store :=
  let index := getDictionaryIndexS s
  let s1 := dsSet s DICTIONARY_INDEX_KEY (.index (mapRemove index dictionaryName))
  let keysToDelete := (dsKeys s1).filter
    (fun k => (dictKeySpace dictionaryName).isPrefixOf k)
  dsDelMany s1 keysToDelete

/-- The base namespace shared by all dictionary bucket keys. -/
def dictKeyBase : Str := DICTIONARY_KEY ++ [uscChar]

/-- The dictionary name a stored key embeds: the text between the base
namespace and the next underscore, or none when no underscore follows. -/
def parseDictName (k : Str) : Option Str :=
  let after := k.drop dictKeyBase.length
  match after.findIdx? (fun c => decide (c = uscChar)) with
  | none => none
  | some i => some (after.take i)

/-- findOrphanedDictionaryKeys from dictionary.ts: every stored key in
the dictionary namespace whose embedded dictionary name parses and is
not in the current dictionary index. -/
def findOrphanedDictionaryKeys (s : Store) : List Str :=
  let installed := (getDictionaryIndexS s).map (fun d => d.1)
  let dictKeys := (dsKeys s).filter (fun k => dictKeyBase.isPrefixOf k)
  dictKeys.foldl
    (fun orphaned k =>
      match parseDictName k with
      | none => orphaned
      | some dictName =>
        if dictName ∈ installed then orphaned else orphaned ++ [k])
    []

/-- cleanupOrphanedDictionaryKeys from dictionary.ts: delete every
orphaned key, returning the count. -/
def cleanupOrphanedDictionaryKeys (s : Store) : Store × Nat :=
  let orphaned := findOrphanedDictionaryKeys s
  (dsDelMany s orphaned, orphaned.length)

/-- Modelled from the spec (claim C3 wording): the comparator the claim
describes, with its seven keys read literally: (1) exactMatch
descending, (2) matched length descending, (3) entries with a reading
different from the term before reading-less entries, (4)
fromDeinflection descending, (5) among two entries sharing an identical
reading the shorter term first, (6) entries whose reading equals the
query substring of that entry own matched length first, (7) score
descending. -/
def specCmp (text : Str) (a b : RWL) : Int :=
  if a.readingExactMatch && !b.readingExactMatch then -1
  else if !a.readingExactMatch && b.readingExactMatch then 1
  else if a.originalTextLength ≠ b.originalTextLength then
    (b.originalTextLength : Int) - (a.originalTextLength : Int)
  else if hasReadingB a.entry && !hasReadingB b.entry then -1
  else if !(hasReadingB a.entry) && hasReadingB b.entry then 1
  else if a.fromDeinflection && !b.fromDeinflection then -1
  else if !a.fromDeinflection && b.fromDeinflection then 1
  else if a.entry.reading = b.entry.reading ∧
      a.entry.term.length ≠ b.entry.term.length then
    (a.entry.term.length : Int) - (b.entry.term.length : Int)
  else
    let aSub := a.entry.reading = text.take a.originalTextLength
    let bSub := b.entry.reading = text.take b.originalTextLength
    if aSub ∧ ¬ bSub then -1
    else if ¬ aSub ∧ bSub then 1
    else b.entry.score - a.entry.score

/-- Modelled from the spec: the ordering relation claim C3 asserts of
the returned list. -/
def specLe (text : Str) (a b : RWL) : Prop := specCmp text a b ≤ 0

instance (text : Str) : DecidableRel (specLe text) := fun a b => by
  unfold specLe
  infer_instance

/-!  Concrete scenarios used by counterexamples and witnesses.  -/

/-- The identity-only deinflection adapter, a behavior the consumed
transform contract permits (zero externally derived base forms). -/
def noTransform : Str → List Str := fun _ => []

/-- Hiragana and kanji code units used by the concrete scenarios. -/
def hA : JChar := 0x3042
def hI : JChar := 0x3044
def hU : JChar := 0x3046
def hMe : JChar := 0x3081
def hN : JChar := 0x3093
def hShi : JChar := 0x3057
def hRa : JChar := 0x3089
def hRi : JChar := 0x308A
def kNichi : JChar := 0x65E5
def kGetsu : JChar := 0x6708
def kHoshi : JChar := 0x661F
def kYama : JChar := 0x5C71
def kHon : JChar := 0x672C
def kMen : JChar := 0x7DBF

/-- The dictionary name used by the concrete scenarios. -/
def dictA : Str := [100]

/-- Scenario store for claims C1 and C5: one dictionary with a single
three-character entry matched exactly at length 3. -/
def storeA : Store :=
  [(DICTIONARY_INDEX_KEY, .index [(dictA, ⟨dictA, [], false⟩)]),
   (bucketKey dictA hA, .bucket [([hA, hI, hU],
     [⟨[hA, hI, hU], [hA, hI, hU], [], [], 7, none⟩])])]

/-- Scenario environment for claims C1 and C5. -/
def envA : Env := ⟨storeA, [], [], 0⟩

/-- The three-character query of the C1 and C5 scenarios. -/
def queryA : Str := [hA, hI, hU]

/-- Scenario store for claim C3: a two-kanji query whose bucket holds
three exact cross-reading trigger entries and three non-exact expansion
entries forming a comparator cycle (two share a reading with different
term lengths and scores 0 and 100, a third has a different reading and
score 50). -/
def storeB : Store :=
  [(DICTIONARY_INDEX_KEY, .index [(dictA, ⟨dictA, [], false⟩)]),
   (bucketKey dictA kNichi, .bucket
     [([kNichi, kGetsu],
       [⟨[kNichi, kGetsu], [kNichi, kHon], [], [], 0, none⟩,
        ⟨[kNichi, kGetsu], [hRa, hRa], [], [], 0, none⟩]),
      ([kNichi, kGetsu, kHoshi],
       [⟨[kNichi, kGetsu, kHoshi], [kNichi, kHon], [], [], 0, none⟩,
        ⟨[kNichi, kGetsu, kHoshi], [hRa, hRa], [], [], 100, none⟩]),
      ([kNichi, kHon],
       [⟨[kNichi, kGetsu], [kNichi, kHon], [], [], 0, none⟩,
        ⟨[kNichi, kGetsu, kHoshi], [kNichi, kHon], [], [], 0, none⟩,
        ⟨[kGetsu, kYama], [kNichi, kHon], [], [], 0, none⟩])]),
   (bucketKey dictA kGetsu, .bucket
     [([kGetsu, kYama],
       [⟨[kGetsu, kYama], [kNichi, kHon], [], [], 0, none⟩,
        ⟨[kGetsu, kYama], [hRi, hRi], [], [], 50, none⟩])]),
   (bucketKey dictA hRa, .bucket
     [([hRa, hRa],
       [⟨[kNichi, kGetsu], [hRa, hRa], [], [], 0, none⟩,
        ⟨[kNichi, kGetsu, kHoshi], [hRa, hRa], [], [], 100, none⟩])]),
   (bucketKey dictA hRi, .bucket
     [([hRi, hRi], [⟨[kGetsu, kYama], [hRi, hRi], [], [], 50, none⟩])])]

/-- Scenario environment for claim C3. -/
def envB : Env := ⟨storeB, [], [], 0⟩

/-- The two-kanji query of the C3 scenario. -/
def queryB : Str := [kNichi, kHon]

/-- Scenario store for claim C2: a hiragana query of length 2 with no
exact or substring match; the only entry is reachable through the
partial-reading fallback because its reading extends the query. -/
def storeC : Store :=
  [(DICTIONARY_INDEX_KEY, .index [(dictA, ⟨dictA, [], false⟩)]),
   (bucketKey dictA kMen, .bucket [([kMen],
     [⟨[kMen], [hMe, hN, hShi], [], [], 3, none⟩])]),
   (bucketKey dictA hMe, .bucket [([hMe, hN, hShi],
     [⟨[kMen], [hMe, hN, hShi], [], [], 3, none⟩])])]

/-- Scenario environment for claim C2. -/
def envC : Env := ⟨storeC, [], [], 0⟩

/-- The two-character query of the C2 scenario. -/
def queryC : Str := [hMe, hN]

/-- Dictionary names of the C9 scenario. -/
def dictD : Str := [68]

/-- Second dictionary name of the C9 scenario, not in the index. -/
def dictE : Str := [69]

/-- Scenario store for claim C9: dictionary D installed with one
bucket, plus a pre-existing orphaned bucket of an uninstalled
dictionary E. -/
def storeD : Store :=
  [(DICTIONARY_INDEX_KEY, .index [(dictD, ⟨dictD, [], false⟩)]),
   (bucketKey dictD hA, .bucket [([hA], [⟨[hA], [hA], [], [], 0, none⟩])]),
   (bucketKey dictE hA, .bucket [([hA], [⟨[hA], [hA], [], [], 0, none⟩])])]

/-- A raw term-bank record used by the C8 witness. -/
def recA : RawRecord := ⟨[kMen], [hMe, hN, hShi], [], [], 5, [[hMe]], 0, [[hN]]⟩

/-- The four-character query of the C4 witness scenario. -/
def text4 : Str := [hA, hI, hU, hU]

/-- An entry matched exactly at length 4 in the C4 witness scenario. -/
def entry4 : DictionaryEntry := ⟨text4, text4, [], [], 0, none⟩

/-- The exact-pass fan-out of the C4 witness scenario. -/
def items4 : List (Str × List DictionaryEntry × Str) := [(dictA, [entry4], text4)]

/-- The number of entries of a list carrying a given term and reading. -/
def countPair (l : List DictionaryEntry) (t rd : Str) : Nat :=
  (l.filter (fun e => decide (e.term = t ∧ e.reading = rd))).length

/-- The entry list a store holds under a bucket key and an in-bucket key. -/
def storedEntries (s : Store) (d : Str) (c : JChar) (key : Str) :
    List DictionaryEntry :=
  (mapGet ((toBucket (dsGet s (bucketKey d c))).getD []) key).getD []

/-- The term-bar-reading dedup key used by the partial-reading search. -/
def pkey (e : DictionaryEntry) : Str := e.term ++ [barChar] ++ e.reading

/-- Pairwise distinct keys of an association map (the program builds its
caches through mapSet, which keeps this invariant). -/
def NodupKeys {K V : Type} (m : List (K × V)) : Prop :=
  (m.map (fun kv => kv.1)).Nodup

/-- Soundness of one recorded (entry, score) pair of the partial-reading
search: the score is common-prefix-length times 1000 plus some prefix
length between the minimum length 2 and the normalized query length, at
which the common prefix is at least 2 long. -/
def Sound (q : Str) (acc : PartialAcc) : Prop :=
  ∀ p ∈ acc.scored, ∃ pl, 2 ≤ pl ∧ pl ≤ q.length ∧
    2 ≤ (getCommonPrefix (q.take pl)
      (convertKatakanaToHiragana p.1.reading)).length ∧
    p.2 = ((getCommonPrefix (q.take pl)
      (convertKatakanaToHiragana p.1.reading)).length : Int) * 1000 + pl

/-- The running invariant of the partial-reading accumulator: the seen
keys are exactly the keys of the recorded pairs in order, they are
pairwise distinct, and every recorded pair is sound. -/
def PAccInv (q : Str) (acc : PartialAcc) : Prop :=
  acc.seen = acc.scored.map (fun p => pkey p.1) ∧ acc.seen.Nodup ∧
    Sound q acc

/-!  Generic list lemmas: the stable sort, folds, and invariants.  -/

theorem insertSorted_perm {α : Type} (le : α → α → Bool) (a : α) :
    ∀ l : List α, List.Perm (insertSorted le a l) (a :: l)
  | [] => by simp [insertSorted]
  | b :: l => by
    unfold insertSorted
    by_cases h : le a b = true
    · rw [if_pos h]
    · rw [if_neg h]
      exact ((insertSorted_perm le a l).cons b).trans (List.Perm.swap a b l)

theorem sortBy_perm {α : Type} (le : α → α → Bool) :
    ∀ l : List α, List.Perm (sortBy le l) l
  | [] => by simp [sortBy]
  | a :: l => by
    unfold sortBy
    exact (insertSorted_perm le a (sortBy le l)).trans ((sortBy_perm le l).cons a)

theorem head?_insertSorted {α : Type} (le : α → α → Bool) (a : α) :
    ∀ l : List α, (insertSorted le a l).head? = some a ∨
      (insertSorted le a l).head? = l.head?
  | [] => Or.inl rfl
  | b :: l => by
    unfold insertSorted
    by_cases h : le a b = true
    · rw [if_pos h]; exact Or.inl rfl
    · rw [if_neg h]; exact Or.inr rfl

theorem chain'_insertSorted {α : Type} (le : α → α → Bool)
    (htot : ∀ x y, le x y = true ∨ le y x = true) (a : α) :
    ∀ l : List α, l.Chain' (fun x y => le x y = true) →
      (insertSorted le a l).Chain' (fun x y => le x y = true)
  | [], _ => by simp [insertSorted]
  | b :: l, h => by
    unfold insertSorted
    by_cases hab : le a b = true
    · rw [if_pos hab]
      exact List.chain'_cons.mpr ⟨hab, h⟩
    · rw [if_neg hab]
      have hba : le b a = true := (htot a b).resolve_left hab
      have htail := chain'_insertSorted le htot a l h.tail
      refine List.chain'_cons'.mpr ⟨?_, htail⟩
      intro y hy
      rcases head?_insertSorted le a l with hh | hh
      · rw [hh] at hy
        cases hy
        exact hba
      · rw [hh] at hy
        exact (List.chain'_cons'.mp h).1 y hy

theorem chain'_sortBy {α : Type} (le : α → α → Bool)
    (htot : ∀ x y, le x y = true ∨ le y x = true) :
    ∀ l : List α, (sortBy le l).Chain' (fun x y => le x y = true)
  | [] => by simp [sortBy]
  | a :: l => chain'_insertSorted le htot a (sortBy le l) (chain'_sortBy le htot l)

theorem foldl_rel {σ β : Type} (P : σ → σ → Prop)
    (htrans : ∀ a b c, P a b → P b c → P a c) {g : σ → β → σ}
    (hrefl : ∀ s, P s s) (hstep : ∀ s x, P s (g s x)) :
    ∀ (l : List β) (init : σ), P init (l.foldl g init)
  | [], init => hrefl init
  | x :: l, init =>
    htrans _ _ _ (hstep init x) (foldl_rel P htrans hrefl hstep l (g init x))

theorem foldl_pred {σ β : Type} (Q : σ → Prop) {g : σ → β → σ}
    (hstep : ∀ s x, Q s → Q (g s x)) :
    ∀ (l : List β) (init : σ), Q init → Q (l.foldl g init)
  | [], _, h => h
  | x :: l, init, h => foldl_pred Q hstep l (g init x) (hstep init x h)

theorem foldl_pred_mem {σ β : Type} (Q : σ → Prop) {g : σ → β → σ} :
    ∀ l : List β, (∀ s x, x ∈ l → Q s → Q (g s x)) →
      ∀ init, Q init → Q (l.foldl g init)
  | [], _, _, h => h
  | x :: l, hstep, init, h =>
    foldl_pred_mem Q l (fun s y hy => hstep s y (List.mem_cons_of_mem x hy))
      (g init x) (hstep init x (List.mem_cons_self x l) h)

theorem foldl_establish {σ β : Type} (B T : σ → Prop) {g : σ → β → σ}
    (hB : ∀ s x, B s → B (g s x)) (hT : ∀ s x, T s → T (g s x)) (x : β)
    (hx : ∀ s, B s → T (g s x)) :
    ∀ l : List β, x ∈ l → ∀ init, B init → T (l.foldl g init)
  | y :: l, hmem, init, hinit => by
    rcases List.mem_cons.mp hmem with hxy | hxt
    · subst hxy
      exact foldl_pred T hT l (g init x) (hx init hinit)
    · exact foldl_establish B T hB hT x hx l hxt (g init y) (hB init y hinit)

/-!  State evolution of the progressive substring loop.  -/

/-- The maximum of a list of naturals (zero when empty). -/
def listMax (l : List Nat) : Nat := l.foldr max 0

theorem le_listMax_of_mem {l : List Nat} {x : Nat} (h : x ∈ l) :
    x ≤ listMax l := by
  induction l with
  | nil => cases h
  | cons y t ih =>
    rcases List.mem_cons.mp h with rfl | ht
    · exact Nat.le_max_left _ _
    · exact le_trans (ih ht) (Nat.le_max_right _ _)

theorem listMax_append_singleton (l : List Nat) (x : Nat) :
    listMax (l ++ [x]) = max (listMax l) x := by
  induction l with
  | nil => simp [listMax]
  | cons y t ih =>
    simp only [listMax, List.cons_append, List.foldr_cons] at *
    rw [ih]
    omega

/-- The key-distinctness invariant of the recorded matches: the seen keys
of the records are pairwise distinct and each is in the seen set. -/
def LInv (st : LState) : Prop :=
  (st.rwl.map rkey).Nodup ∧ ∀ r ∈ st.rwl, rkey r ∈ st.seen

/-- The running-maximum invariant: maxLen is the maximum recorded
length. -/
def MInv (st : LState) : Prop :=
  st.maxLen = listMax (st.rwl.map (fun r => r.originalTextLength))

/-- How the lookup state evolves inside one loop iteration at length L:
records are only appended and carry length L, the seen set only grows,
the running maximum only grows, the trace is untouched, and the two
invariants are preserved. -/
structure Evolves (L : Nat) (st st' : LState) : Prop where
  rwlApp : ∃ d, st'.rwl = st.rwl ++ d ∧ ∀ r ∈ d, r.originalTextLength = L
  seenMono : ∀ k ∈ st.seen, k ∈ st'.seen
  maxMono : st.maxLen ≤ st'.maxLen
  traceEq : st'.trace = st.trace
  linv : LInv st → LInv st'
  minv : MInv st → MInv st'

theorem evolves_refl (L : Nat) (st : LState) : Evolves L st st :=
  ⟨⟨[], by simp, by simp⟩, fun _ h => h, le_refl _, Eq.refl _, id, id⟩

theorem evolves_comp {L : Nat} {st1 st2 st3 : LState}
    (h1 : Evolves L st1 st2) (h2 : Evolves L st2 st3) : Evolves L st1 st3 := by
  obtain ⟨⟨d1, hd1, hl1⟩, sm1, mm1, te1, li1, mi1⟩ := h1
  obtain ⟨⟨d2, hd2, hl2⟩, sm2, mm2, te2, li2, mi2⟩ := h2
  refine ⟨⟨d1 ++ d2, ?_, ?_⟩, fun k h => sm2 k (sm1 k h), le_trans mm1 mm2,
    te2.trans te1, fun h => li2 (li1 h), fun h => mi2 (mi1 h)⟩
  · rw [hd2, hd1, List.append_assoc]
  · intro r hr
    rcases List.mem_append.mp hr with h | h
    · exact hl1 r h
    · exact hl2 r h

theorem evolves_kanjiUpdate (L : Nat) (st : LState) (ks : List Str) :
    Evolves L st { st with kanjiSearched := ks } :=
  ⟨⟨[], by simp, by simp⟩, fun _ h => h, le_refl _, Eq.refl _, id, id⟩

theorem pushRecord_evolves (st : LState) (d : Str) (e : DictionaryEntry)
    (L : Nat) (b1 b2 : Bool) : Evolves L st (pushRecord st d e L b1 b2).1 := by
  unfold pushRecord
  by_cases h : seenKey d e ∈ st.seen
  · rw [if_pos h]
    exact evolves_refl L st
  · rw [if_neg h]
    have hkey : rkey ⟨{ e with dictionary := some d }, L, b1, b2⟩ = seenKey d e := rfl
    refine ⟨⟨[⟨{ e with dictionary := some d }, L, b1, b2⟩], by simp, by simp⟩,
      ?_, ?_, Eq.refl _, ?_, ?_⟩
    · intro k hk
      simp only [List.mem_append]
      exact Or.inl hk
    · exact Nat.le_max_left _ _
    · rintro ⟨hnod, hsub⟩
      constructor
      · simp only [List.map_append, List.map_cons, List.map_nil]
        apply List.Nodup.append hnod (List.nodup_singleton _)
        intro k hk hk'
        simp only [List.mem_singleton] at hk'
        subst hk'
        rcases List.mem_map.mp hk with ⟨r, hr, hrk⟩
        exact h (hkey ▸ hrk ▸ hsub r hr)
      · intro r hr
        simp only [List.mem_append]
        rcases List.mem_append.mp hr with hold | hnew
        · exact Or.inl (hsub r hold)
        · simp only [List.mem_singleton] at hnew
          subst hnew
          exact Or.inr (by simp [hkey])
    · intro hm
      simp only [MInv, List.map_append, List.map_cons, List.map_nil] at *
      rw [listMax_append_singleton, hm]

theorem foldl_evolves {β : Type} (L : Nat)
    {g : (Env × LState) → β → (Env × LState)}
    (hstep : ∀ s x, Evolves L s.2 (g s x).2) (l : List β)
    (init : Env × LState) : Evolves L init.2 (l.foldl g init).2 :=
  foldl_rel (fun a b => Evolves L a.2 b.2) (fun _ _ _ => evolves_comp)
    (fun s => evolves_refl L s.2) hstep l init

theorem foldl_evolves3 {β : Type} (L : Nat)
    {g : (Env × LState × Bool) → β → (Env × LState × Bool)}
    (hstep : ∀ s x, Evolves L s.2.1 (g s x).2.1) (l : List β)
    (init : Env × LState × Bool) :
    Evolves L init.2.1 (l.foldl g init).2.1 :=
  foldl_rel (fun a b => Evolves L a.2.1 b.2.1) (fun _ _ _ => evolves_comp)
    (fun s => evolves_refl L s.2.1) hstep l init

theorem searchAllReadings_evolves (env : Env) (st : LState)
    (index : DictIndex) (text kanjiTerm : Str) (L : Nat) :
    Evolves L st (searchAllReadingsForTerm env st index text kanjiTerm L).2 := by
  unfold searchAllReadingsForTerm
  by_cases h : kanjiTerm ∈ st.kanjiSearched
  · rw [if_pos h]
    exact evolves_refl L st
  · rw [if_neg h]
    dsimp only
    refine evolves_comp (evolves_kanjiUpdate L st (st.kanjiSearched ++ [kanjiTerm])) ?_
    refine foldl_evolves L ?_ index
      (env, { st with kanjiSearched := st.kanjiSearched ++ [kanjiTerm] })
    intro s d
    dsimp only
    refine foldl_evolves L ?_ (findAllReadingsForTerm s.1 d.1 kanjiTerm).1
      ((findAllReadingsForTerm s.1 d.1 kanjiTerm).2, s.2)
    intro s2 e
    exact pushRecord_evolves s2.2 d.1 e L false _

theorem processExactEntry_evolves (index : DictIndex)
    (text searchText searchHira : Str) (hasKanji : Bool) (L : Nat)
    (dictName variant : Str) (acc : Env × LState × Bool) (e : DictionaryEntry) :
    Evolves L acc.2.1
      (processExactEntry index text searchText searchHira hasKanji L dictName
        variant acc e).2.1 := by
  unfold processExactEntry
  dsimp only
  split
  · split
    · split
      · exact evolves_comp (pushRecord_evolves _ _ _ _ _ _)
          (searchAllReadings_evolves _ _ _ _ _ _)
      · exact pushRecord_evolves _ _ _ _ _ _
    · exact evolves_refl L acc.2.1
  · split
    · exact pushRecord_evolves _ _ _ _ _ _
    · exact evolves_refl L acc.2.1

theorem processExactResults_evolves (index : DictIndex)
    (text searchText searchHira : Str) (hasKanji : Bool) (L : Nat)
    (env0 : Env) (st0 : LState) (b0 : Bool)
    (items : List (Str × List DictionaryEntry × Str)) :
    Evolves L st0
      (processExactResults index text searchText searchHira hasKanji L
        (env0, st0, b0) items).2.1 := by
  unfold processExactResults
  refine foldl_evolves3 L ?_ items (env0, st0, b0)
  intro s item
  exact foldl_evolves3 L
    (fun s2 e => processExactEntry_evolves index text searchText searchHira
      hasKanji L item.1 item.2.2 s2 e) item.2.1 s

theorem processDeinflectEntry_evolves (index : DictIndex) (text : Str)
    (hasKanji : Bool) (L : Nat) (dictName deinflected : Str)
    (acc : Env × LState × Bool) (e : DictionaryEntry) :
    Evolves L acc.2.1
      (processDeinflectEntry index text hasKanji L dictName deinflected acc
        e).2.1 := by
  unfold processDeinflectEntry
  simp only []
  split
  · exact evolves_refl L acc.2.1
  · split
    · exact evolves_comp (pushRecord_evolves _ _ _ _ _ _)
        (searchAllReadings_evolves _ _ _ _ _ _)
    · exact pushRecord_evolves _ _ _ _ _ _

theorem deinflectItems_evolves (index : DictIndex) (text : Str)
    (hasKanji : Bool) (L : Nat) (deinflected : Str)
    (items : List (Str × List DictionaryEntry)) (env0 : Env) (st0 : LState)
    (b0 : Bool) :
    Evolves L st0
      (items.foldl
        (fun acc2 item =>
          item.2.foldl
            (processDeinflectEntry index text hasKanji L item.1 deinflected)
            acc2)
        (env0, st0, b0)).2.1 := by
  refine foldl_evolves3 L ?_ items (env0, st0, b0)
  intro s2 item
  exact foldl_evolves3 L
    (fun s3 e => processDeinflectEntry_evolves index text hasKanji L
      item.1 deinflected s3 e) item.2 s2

theorem deinflectPass_evolves (transform : Str → List Str)
    (index : DictIndex) (dictNames : List Str) (text : Str) (hasKanji : Bool)
    (L : Nat) (variants : List Str) (acc0 : Env × LState × Bool) :
    Evolves L acc0.2.1
      (deinflectPass transform index dictNames text hasKanji L variants
        acc0).2.1 := by
  unfold deinflectPass
  refine foldl_evolves3 L ?_ _ acc0
  intro s deinflected
  by_cases hv : deinflected ∈ variants
  · rw [if_pos hv]
    exact evolves_refl L s.2.1
  · rw [if_neg hv]
    exact deinflectItems_evolves index text hasKanji L deinflected _ _ _ _

theorem iterTail_evolves (transform : Str → List Str) (index : DictIndex)
    (dictNames : List Str) (text : Str) (hasKanji : Bool) (L : Nat)
    (variants : List Str) (A : Env × LState × Bool) :
    Evolves L A.2.1
      (if shouldSkipDeinflections A.2.1 L A.2.2 then A
       else deinflectPass transform index dictNames text hasKanji L variants
         A).2.1 := by
  by_cases h : shouldSkipDeinflections A.2.1 L A.2.2 = true
  · rw [if_pos h]
    exact evolves_refl L A.2.1
  · rw [if_neg h]
    exact deinflectPass_evolves transform index dictNames text hasKanji L
      variants A

theorem loopIter_evolves (transform : Str → List Str) (env : Env)
    (index : DictIndex) (dictNames : List Str) (text : Str) (hasKanji : Bool)
    (st : LState) (L : Nat) :
    Evolves L { st with trace := st.trace ++ [L] }
      (loopIter transform env index dictNames text hasKanji st L).2.1 := by
  unfold loopIter
  simp only []
  refine evolves_comp
    (processExactResults_evolves index text (List.take L text)
      (convertKatakanaToHiragana (List.take L text)) hasKanji L
      (exactFetch env dictNames
        (if List.take L text = convertKatakanaToHiragana (List.take L text)
         then [List.take L text]
         else [List.take L text, convertKatakanaToHiragana (List.take L text)])).2
      { st with trace := st.trace ++ [L] } false
      (exactFetch env dictNames
        (if List.take L text = convertKatakanaToHiragana (List.take L text)
         then [List.take L text]
         else [List.take L text,
           convertKatakanaToHiragana (List.take L text)])).1) ?_
  exact iterTail_evolves transform index dictNames text hasKanji L _ _

theorem loopIter_brk (transform : Str → List Str) (env : Env)
    (index : DictIndex) (dictNames : List Str) (text : Str) (hasKanji : Bool)
    (st : LState) (L : Nat) :
    (loopIter transform env index dictNames text hasKanji st L).2.2 =
      earlyExit
        (loopIter transform env index dictNames text hasKanji st L).2.1 L :=
  rfl

theorem earlyExit_false_of_three_le {st : LState} {L : Nat} (h : 3 ≤ L) :
    earlyExit st L = false := by
  unfold earlyExit
  have : decide (L ≤ 2) = false := by
    simp only [decide_eq_false_iff_not]
    omega
  rw [this, Bool.false_and]

theorem lookupLoop_linv (transform : Str → List Str) (index : DictIndex)
    (dictNames : List Str) (text : Str) (hasKanji : Bool) :
    ∀ (fuel : Nat) (env : Env) (st : LState), LInv st →
      LInv (lookupLoop transform index dictNames text hasKanji fuel env st).2
  | 0, _, _, h => h
  | L + 1, env, st, h => by
    unfold lookupLoop
    have he := loopIter_evolves transform env index dictNames text hasKanji st
      (L + 1)
    have h1 : LInv
        (loopIter transform env index dictNames text hasKanji st (L + 1)).2.1 :=
      he.linv h
    by_cases hb :
        (loopIter transform env index dictNames text hasKanji st (L + 1)).2.2 = true
    · rw [if_pos hb]
      exact h1
    · rw [if_neg hb]
      exact lookupLoop_linv transform index dictNames text hasKanji L _ _ h1

theorem lookupLoop_trace_mono (transform : Str → List Str)
    (index : DictIndex) (dictNames : List Str) (text : Str)
    (hasKanji : Bool) :
    ∀ (fuel : Nat) (env : Env) (st : LState) (k : Nat), k ∈ st.trace →
      k ∈ (lookupLoop transform index dictNames text hasKanji fuel env
        st).2.trace
  | 0, _, _, _, h => h
  | L + 1, env, st, k, h => by
    unfold lookupLoop
    have he := loopIter_evolves transform env index dictNames text hasKanji st
      (L + 1)
    have h1 : k ∈
        (loopIter transform env index dictNames text hasKanji st
          (L + 1)).2.1.trace := by
      rw [he.traceEq]
      exact List.mem_append.mpr (Or.inl h)
    by_cases hb :
        (loopIter transform env index dictNames text hasKanji st (L + 1)).2.2 = true
    · rw [if_pos hb]
      exact h1
    · rw [if_neg hb]
      exact lookupLoop_trace_mono transform index dictNames text hasKanji L _ _
        k h1

theorem lookupLoop_two_mem (transform : Str → List Str) (index : DictIndex)
    (dictNames : List Str) (text : Str) (hasKanji : Bool) :
    ∀ (fuel : Nat) (env : Env) (st : LState), 2 ≤ fuel →
      2 ∈ (lookupLoop transform index dictNames text hasKanji fuel env
        st).2.trace
  | L + 1, env, st, hf => by
    unfold lookupLoop
    have he := loopIter_evolves transform env index dictNames text hasKanji st
      (L + 1)
    by_cases h2 : L + 1 = 2
    · have h1 : 2 ∈
          (loopIter transform env index dictNames text hasKanji st
            (L + 1)).2.1.trace := by
        rw [he.traceEq, h2]
        exact List.mem_append.mpr (Or.inr (List.mem_singleton.mpr rfl))
      by_cases hb :
          (loopIter transform env index dictNames text hasKanji st (L + 1)).2.2 = true
      · rw [if_pos hb]
        exact h1
      · rw [if_neg hb]
        exact lookupLoop_trace_mono transform index dictNames text hasKanji L
          _ _ 2 h1
    · have h3 : 3 ≤ L + 1 := by omega
      have hb :
          (loopIter transform env index dictNames text hasKanji st (L + 1)).2.2 = false := by
        rw [loopIter_brk]
        exact earlyExit_false_of_three_le h3
      by_cases hb2 :
          (loopIter transform env index dictNames text hasKanji st (L + 1)).2.2 = true
      · rw [hb] at hb2
        exact absurd hb2 (by simp)
      · rw [if_neg hb2]
        exact lookupLoop_two_mem transform index dictNames text hasKanji L _ _
          (by omega)

theorem lookupLoop_no_one (transform : Str → List Str) (index : DictIndex)
    (dictNames : List Str) (text : Str) (hasKanji : Bool) :
    ∀ (fuel : Nat) (env : Env) (st : LState), MInv st → 1 ∉ st.trace →
      (fuel ≤ 1 → st.maxLen < 3) →
      1 ∈ (lookupLoop transform index dictNames text hasKanji fuel env
        st).2.trace →
      ∀ r ∈ (lookupLoop transform index dictNames text hasKanji fuel env
        st).2.rwl, r.originalTextLength < 3
  | 0, _, _, _, hno, _, hone => absurd hone hno
  | L + 1, env, st, hm, hno, hsmall, hone => by
    have he := loopIter_evolves transform env index dictNames text hasKanji st
      (L + 1)
    have hm1 : MInv
        (loopIter transform env index dictNames text hasKanji st (L + 1)).2.1 :=
      he.minv hm
    by_cases hL : L = 0
    · -- the last possible iteration: whatever the break flag says, the
      -- resulting state is the iteration result
      subst hL
      have hmax : st.maxLen < 3 := hsmall (by omega)
      have hres :
          (lookupLoop transform index dictNames text hasKanji 1 env st).2 =
          (loopIter transform env index dictNames text hasKanji st 1).2.1 := by
        unfold lookupLoop
        by_cases hb :
            (loopIter transform env index dictNames text hasKanji st 1).2.2 = true
        · rw [if_pos hb]
        · rw [if_neg hb]
          unfold lookupLoop
          rfl
      rw [hres]
      obtain ⟨d, hd, hlen⟩ := he.rwlApp
      intro r hr
      rw [hd] at hr
      rcases List.mem_append.mp hr with hold | hnew
      · have hmm : st.maxLen =
            listMax (st.rwl.map (fun r => r.originalTextLength)) := hm
        have hle : r.originalTextLength ≤ st.maxLen := by
          rw [hmm]
          exact le_listMax_of_mem (List.mem_map.mpr ⟨r, hold, rfl⟩)
        omega
      · have h1 := hlen r hnew
        omega
    · -- at least two lengths remain, so the appended trace entry is not 1
      have hno1 : 1 ∉
          (loopIter transform env index dictNames text hasKanji st
            (L + 1)).2.1.trace := by
        rw [he.traceEq]
        intro hmem
        rcases List.mem_append.mp hmem with h | h
        · exact hno h
        · simp only [List.mem_singleton] at h
          omega
      by_cases hb :
          (loopIter transform env index dictNames text hasKanji st (L + 1)).2.2 = true
      · have hres :
            (lookupLoop transform index dictNames text hasKanji (L + 1) env
              st).2 =
            (loopIter transform env index dictNames text hasKanji st
              (L + 1)).2.1 := by
          unfold lookupLoop
          rw [if_pos hb]
        rw [hres] at hone
        exact absurd hone hno1
      · have hres :
            lookupLoop transform index dictNames text hasKanji (L + 1) env st =
            lookupLoop transform index dictNames text hasKanji L
              (loopIter transform env index dictNames text hasKanji st
                (L + 1)).1
              (loopIter transform env index dictNames text hasKanji st
                (L + 1)).2.1 := by
          conv_lhs => unfold lookupLoop
          rw [if_neg hb]
        rw [hres] at hone ⊢
        have hsmall1 : L ≤ 1 →
            (loopIter transform env index dictNames text hasKanji st
              (L + 1)).2.1.maxLen < 3 := by
          intro hL1
          rw [loopIter_brk] at hb
          unfold earlyExit at hb
          simp only [Bool.and_eq_true, decide_eq_true_eq, not_and] at hb
          have h4 := hb (by omega)
          omega
        exact lookupLoop_no_one transform index dictNames text hasKanji L _ _
          hm1 hno1 hsmall1 hone

theorem pushRecord_false {st : LState} {d : Str} {e : DictionaryEntry}
    {L : Nat} {b1 b2 : Bool} (h : (pushRecord st d e L b1 b2).2 = false) :
    (pushRecord st d e L b1 b2).1 = st := by
  unfold pushRecord at *
  by_cases hs : seenKey d e ∈ st.seen
  · rw [if_pos hs]
  · rw [if_neg hs] at h
    exact absurd h (by simp)

theorem processExactEntry_found (index : DictIndex)
    (text searchText searchHira : Str) (hasKanji : Bool) (L : Nat)
    (dictName variant : Str) (st0 : LState) (acc : Env × LState × Bool)
    (e : DictionaryEntry) (hQ : acc.2.2 = false → acc.2.1 = st0) :
    (processExactEntry index text searchText searchHira hasKanji L dictName
      variant acc e).2.2 = false →
    (processExactEntry index text searchText searchHira hasKanji L dictName
      variant acc e).2.1 = st0 := by
  unfold processExactEntry
  dsimp only
  split
  · split
    · split
      next hx =>
        intro hf
        rw [Bool.and_eq_true] at hx
        simp only [hx.1, Bool.or_true] at hf
        cases hf
      · intro hf
        simp only [Bool.or_eq_false_iff] at hf
        rw [pushRecord_false hf.2]
        exact hQ hf.1
    · exact hQ
  · split
    · intro hf
      simp only [Bool.or_eq_false_iff] at hf
      rw [pushRecord_false hf.2]
      exact hQ hf.1
    · exact hQ

theorem processExactResults_found (index : DictIndex)
    (text searchText searchHira : Str) (hasKanji : Bool) (L : Nat)
    (env0 : Env) (st0 : LState)
    (items : List (Str × List DictionaryEntry × Str)) :
    (processExactResults index text searchText searchHira hasKanji L
      (env0, st0, false) items).2.2 = false →
    (processExactResults index text searchText searchHira hasKanji L
      (env0, st0, false) items).2.1 = st0 := by
  unfold processExactResults
  refine foldl_pred
    (fun (acc : Env × LState × Bool) => acc.2.2 = false → acc.2.1 = st0)
    ?_ items (env0, st0, false) (fun _ => rfl)
  intro s item hs
  refine foldl_pred
    (fun (acc : Env × LState × Bool) => acc.2.2 = false → acc.2.1 = st0)
    ?_ item.2.1 s hs
  intro s2 e hs2
  exact processExactEntry_found index text searchText searchHira hasKanji L
    item.1 item.2.2 st0 s2 e hs2

/-!  Key distinctness through the filter-and-rank pipeline.  -/

/-- The dedup identity of a finished entry: its dictionary, term and
reading joined with bars, exactly the key string of the seen set. -/
def ekey (e : DictionaryEntry) : Str :=
  (e.dictionary.getD []) ++ [barChar] ++ e.term ++ [barChar] ++ e.reading

/-- The identifying triple of a finished entry. -/
def tripleOf (e : DictionaryEntry) : Option Str × Str × Str :=
  (e.dictionary, e.term, e.reading)

theorem rkey_eq_ekey (r : RWL) : rkey r = ekey r.entry := rfl

theorem ekey_congr {a b : DictionaryEntry} (h : tripleOf a = tripleOf b) :
    ekey a = ekey b := by
  unfold tripleOf at h
  have h1 : a.dictionary = b.dictionary := congrArg Prod.fst h
  have h2 : a.term = b.term := congrArg (fun p => p.2.1) h
  have h3 : a.reading = b.reading := congrArg (fun p => p.2.2) h
  unfold ekey
  rw [h1, h2, h3]

theorem dedupNats_nodup (l : List Nat) : (dedupNats l).Nodup := by
  unfold dedupNats
  refine foldl_pred (fun acc : List Nat => acc.Nodup) ?_ l [] List.nodup_nil
  intro acc x h
  dsimp only
  split
  · exact h
  next hx =>
    refine List.Nodup.append h (List.nodup_singleton x) ?_
    intro a ha hb
    rw [List.mem_singleton] at hb
    subst hb
    exact hx ha

theorem sortBy_nodup {α : Type} (le : α → α → Bool) (l : List α)
    (h : l.Nodup) : (sortBy le l).Nodup :=
  (sortBy_perm le l).nodup_iff.mpr h

theorem sortDescNat_nodup (l : List Nat) (h : l.Nodup) :
    (sortDescNat l).Nodup := sortBy_nodup _ l h

theorem nodup_map_filter_append {α K : Type} [DecidableEq K] (f : α → K)
    (l : List α) (hl : (l.map f).Nodup) (p q : α → Bool)
    (hpq : ∀ x, ¬ (p x = true ∧ q x = true)) :
    ((l.filter p ++ l.filter q).map f).Nodup := by
  rw [List.map_append]
  refine List.Nodup.append ?_ ?_ ?_
  · exact List.Nodup.sublist (List.Sublist.map f (List.filter_sublist l)) hl
  · exact List.Nodup.sublist (List.Sublist.map f (List.filter_sublist l)) hl
  · intro y hy hy'
    rcases List.mem_map.mp hy with ⟨a, ha, rfl⟩
    rcases List.mem_map.mp hy' with ⟨b, hb, hab⟩
    rcases List.mem_filter.mp ha with ⟨hal, hap⟩
    rcases List.mem_filter.mp hb with ⟨hbl, hbq⟩
    have : b = a := List.inj_on_of_nodup_map hl hbl hal hab
    subst this
    exact hpq b ⟨hap, hbq⟩

theorem nodup_map_flatMap_blocks {α K : Type} [DecidableEq K] (f : α → K)
    (l : List α) (hl : (l.map f).Nodup) (len : α → Nat)
    (block : Nat → List α)
    (hsub : ∀ ℓ, ∀ r ∈ block ℓ, r ∈ l ∧ len r = ℓ)
    (hnod : ∀ ℓ, ((block ℓ).map f).Nodup) :
    ∀ lens : List Nat, lens.Nodup → ((lens.flatMap block).map f).Nodup
  | [], _ => by simp
  | ℓ :: rest, hlens => by
    rw [List.flatMap_cons, List.map_append]
    refine List.Nodup.append (hnod ℓ)
      (nodup_map_flatMap_blocks f l hl len block hsub hnod rest
        (List.Nodup.of_cons hlens)) ?_
    intro y hy hy'
    rcases List.mem_map.mp hy with ⟨a, ha, rfl⟩
    rcases List.mem_map.mp hy' with ⟨b, hb, hab⟩
    rcases List.mem_flatMap.mp hb with ⟨ℓ', hℓ', hbℓ⟩
    have hae := hsub ℓ a ha
    have hbe := hsub ℓ' b hbℓ
    have : b = a := List.inj_on_of_nodup_map hl hbe.1 hae.1 hab
    subst this
    have : ℓ = ℓ' := by rw [← hae.2, ← hbe.2]
    subst this
    exact (List.nodup_cons.mp hlens).1 hℓ'

theorem groupedRecords_nodup (rwl : List RWL)
    (h : (rwl.map rkey).Nodup) : ((groupedRecords rwl).map rkey).Nodup := by
  unfold groupedRecords
  dsimp only
  split
  · -- no exact matches: one block per meaningful length
    refine nodup_map_flatMap_blocks rkey rwl h (fun r => r.originalTextLength)
      _ ?_ ?_ _ ?_
    · intro ℓ r hr
      rcases List.mem_filter.mp hr with ⟨hrl, hrp⟩
      exact ⟨hrl, by simpa using hrp⟩
    · intro ℓ
      exact List.Nodup.sublist (List.Sublist.map rkey (List.filter_sublist rwl)) h
    · exact List.Nodup.filter _ (sortDescNat_nodup _ (dedupNats_nodup _))
  · -- exact matches present: per length, exact matches then the rest
    refine nodup_map_flatMap_blocks rkey rwl h (fun r => r.originalTextLength)
      _ ?_ ?_ _ ?_
    · intro ℓ r hr
      rcases List.mem_append.mp hr with hr | hr <;>
        rcases List.mem_filter.mp hr with ⟨hra, _⟩ <;>
        rcases List.mem_filter.mp hra with ⟨hrl, hrp⟩ <;>
        exact ⟨hrl, by simpa using hrp⟩
    · intro ℓ
      have hsubl : (List.filter
          (fun r => decide (r.originalTextLength = ℓ)) rwl).map rkey |>.Nodup :=
        List.Nodup.sublist (List.Sublist.map rkey (List.filter_sublist rwl)) h
      refine nodup_map_filter_append rkey _ hsubl _ _ ?_
      rintro x ⟨h1, h2⟩
      rw [h1] at h2
      simp at h2
    · exact sortDescNat_nodup _ (dedupNats_nodup _)

theorem rkey_attachInfo (rwl : List RWL) (r : RWL) :
    rkey (attachInfo rwl r.entry) = rkey r := by
  unfold attachInfo
  split <;> rfl

theorem filterRankInfos_nodup (text : Str) (rwl : List RWL)
    (h : (rwl.map rkey).Nodup) :
    ((filterRankInfos text rwl).map rkey).Nodup := by
  unfold filterRankInfos
  dsimp only
  have hmap : ((groupedRecords rwl).map (fun r => attachInfo rwl r.entry)).map
      rkey = (groupedRecords rwl).map rkey := by
    rw [List.map_map]
    exact List.map_congr_left (fun r _ => rkey_attachInfo rwl r)
  have hperm := (sortBy_perm (codeLe text)
    ((groupedRecords rwl).map (fun r => attachInfo rwl r.entry))).map rkey
  exact hperm.nodup_iff.mpr (hmap ▸ groupedRecords_nodup rwl h)

theorem pairwise_triple_of_nodup_map {l : List RWL}
    (h : (l.map rkey).Nodup) :
    (l.map (fun r => r.entry)).Pairwise
      (fun a b => tripleOf a ≠ tripleOf b) := by
  rw [List.pairwise_map]
  have hp : l.Pairwise (fun a b => rkey a ≠ rkey b) :=
    (List.pairwise_map).mp h
  refine hp.imp ?_
  intro a b hab heq
  exact hab (by rw [rkey_eq_ekey, rkey_eq_ekey]; exact ekey_congr heq)

/-!  Association map lemmas.  -/

theorem mapGet_mapSet_self {K V : Type} [DecidableEq K] (m : List (K × V))
    (k : K) (v : V) : mapGet (mapSet m k v) k = some v := by
  induction m with
  | nil => simp [mapGet, mapSet]
  | cons kv rest ih =>
    unfold mapSet
    by_cases h : kv.1 = k
    · rw [if_pos h]
      simp [mapGet]
    · rw [if_neg h]
      unfold mapGet
      rw [if_neg h]
      exact ih

theorem mapGet_mapSet_ne {K V : Type} [DecidableEq K] (m : List (K × V))
    (k k' : K) (v : V) (h : k ≠ k') :
    mapGet (mapSet m k v) k' = mapGet m k' := by
  induction m with
  | nil => simp [mapGet, mapSet, h]
  | cons kv rest ih =>
    unfold mapSet
    by_cases hk : kv.1 = k
    · rw [if_pos hk]
      unfold mapGet
      rw [if_neg h, if_neg (hk ▸ h)]
    · rw [if_neg hk]
      unfold mapGet
      by_cases hk' : kv.1 = k'
      · rw [if_pos hk', if_pos hk']
      · rw [if_neg hk', if_neg hk']
        exact ih

theorem length_mapSet_le {K V : Type} [DecidableEq K] (m : List (K × V))
    (k : K) (v : V) : (mapSet m k v).length ≤ m.length + 1 := by
  induction m with
  | nil => simp [mapSet]
  | cons kv rest ih =>
    unfold mapSet
    by_cases h : kv.1 = k
    · rw [if_pos h]
      simp
    · rw [if_neg h]
      simp only [List.length_cons]
      omega

theorem mapSet_eq_append_of_none {K V : Type} [DecidableEq K]
    (m : List (K × V)) (k : K) (v : V) (h : mapGet m k = none) :
    mapSet m k v = m ++ [(k, v)] := by
  induction m with
  | nil => rfl
  | cons kv rest ih =>
    obtain ⟨k', v'⟩ := kv
    unfold mapGet at h
    unfold mapSet
    by_cases hk : k' = k
    · rw [if_pos hk] at h
      cases h
    · rw [if_neg hk] at h
      rw [if_neg hk, ih h]
      rfl

theorem mapGet_none_tail {K V : Type} [DecidableEq K] (m : List (K × V))
    (k : K) (h : mapGet m k = none) : mapGet m.tail k = none := by
  cases m with
  | nil => rfl
  | cons kv rest =>
    obtain ⟨k', v'⟩ := kv
    unfold mapGet at h
    by_cases hk : k' = k
    · rw [if_pos hk] at h
      cases h
    · rw [if_neg hk] at h
      exact h

theorem mapGet_append_single_self {K V : Type} [DecidableEq K]
    (m : List (K × V)) (k : K) (v : V) (h : mapGet m k = none) :
    mapGet (m ++ [(k, v)]) k = some v := by
  induction m with
  | nil => simp [mapGet]
  | cons kv rest ih =>
    obtain ⟨k', v'⟩ := kv
    unfold mapGet at h ⊢
    by_cases hk : k' = k
    · rw [if_pos hk] at h
      cases h
    · rw [if_neg hk] at h
      show (if k' = k then some v' else mapGet (rest ++ [(k, v)]) k) = some v
      rw [if_neg hk]
      exact ih h

theorem length_mapSet_of_some {K V : Type} [DecidableEq K]
    (m : List (K × V)) (k : K) (v : V) {r : V}
    (h : mapGet m k = some r) : (mapSet m k v).length = m.length := by
  induction m with
  | nil => cases h
  | cons kv rest ih =>
    obtain ⟨k', v'⟩ := kv
    unfold mapGet at h
    unfold mapSet
    by_cases hk : k' = k
    · rw [if_pos hk]
      rfl
    · rw [if_neg hk] at h
      rw [if_neg hk]
      simp only [List.length_cons, ih h]

/-!  The partial-reading fallback invariant.  -/

/-- The invariant of one fallback run: the accepted entries have pairwise
distinct keys, each key is in the seen set, each accepted entry satisfies
the raw accept condition, and each carries the name of an installed
dictionary. -/
def FallInv (index : DictIndex) (text : Str)
    (acc : Env × LState × List DictionaryEntry) : Prop :=
  ((acc.2.2.map ekey).Nodup ∧ ∀ e ∈ acc.2.2, ekey e ∈ acc.2.1.seen) ∧
  (∀ e ∈ acc.2.2, e.reading ≠ [] ∧
    (e.reading = text ∨ text <+: e.reading ∨ e.reading <+: text)) ∧
  (∀ e ∈ acc.2.2, ∃ d ∈ index.map (fun p => p.1), e.dictionary = some d)

theorem ekey_withDict (e : DictionaryEntry) (d : Str) :
    ekey { e with dictionary := some d } = seenKey d e := rfl

theorem fallbackEntry_inv (index : DictIndex) (text : Str) (hasKanji : Bool)
    (dictName : Str) (hd : dictName ∈ index.map (fun p => p.1))
    (acc : Env × LState × List DictionaryEntry) (e : DictionaryEntry)
    (h : FallInv index text acc) :
    FallInv index text (fallbackEntry index text hasKanji dictName acc e) := by
  obtain ⟨⟨hnod, hseen⟩, hcond, hdict⟩ := h
  unfold fallbackEntry
  dsimp only
  split
  · exact ⟨⟨hnod, hseen⟩, hcond, hdict⟩
  next hkey =>
    split
    next hrm =>
      have hnod' : (((acc.2.2 ++ [{ e with dictionary := some dictName }]).map
          ekey)).Nodup := by
        rw [List.map_append]
        refine List.Nodup.append hnod (by simp) ?_
        intro y hy hy'
        rcases List.mem_map.mp hy with ⟨a, ha, rfl⟩
        simp only [List.map_cons, List.map_nil, List.mem_singleton] at hy'
        rw [ekey_withDict] at hy'
        exact hkey (hy' ▸ hseen a ha)
      have hcond' : ∀ x ∈ acc.2.2 ++ [{ e with dictionary := some dictName }],
          x.reading ≠ [] ∧
            (x.reading = text ∨ text <+: x.reading ∨ x.reading <+: text) := by
        intro x hx
        rcases List.mem_append.mp hx with hx | hx
        · exact hcond x hx
        · simp only [List.mem_singleton] at hx
          subst hx
          exact hrm
      have hdict' : ∀ x ∈ acc.2.2 ++ [{ e with dictionary := some dictName }],
          ∃ d ∈ index.map (fun p => p.1), x.dictionary = some d := by
        intro x hx
        rcases List.mem_append.mp hx with hx | hx
        · exact hdict x hx
        · simp only [List.mem_singleton] at hx
          subst hx
          exact ⟨dictName, hd, rfl⟩
      split
      · -- the kanji cross-reading expansion runs; its seen set only grows
        have hev := searchAllReadings_evolves acc.1
          { acc.2.1 with seen := acc.2.1.seen ++ [seenKey dictName e] } index
          text e.term text.length
        refine ⟨⟨hnod', ?_⟩, hcond', hdict'⟩
        intro x hx
        rcases List.mem_append.mp hx with hx | hx
        · exact hev.seenMono _ (List.mem_append.mpr (Or.inl (hseen x hx)))
        · simp only [List.mem_singleton] at hx
          subst hx
          rw [ekey_withDict]
          exact hev.seenMono _ (List.mem_append.mpr (Or.inr (by simp)))
      · refine ⟨⟨hnod', ?_⟩, hcond', hdict'⟩
        intro x hx
        rcases List.mem_append.mp hx with hx | hx
        · exact List.mem_append.mpr (Or.inl (hseen x hx))
        · simp only [List.mem_singleton] at hx
          subst hx
          rw [ekey_withDict]
          exact List.mem_append.mpr (Or.inr (by simp))
    · exact ⟨⟨hnod, hseen⟩, hcond, hdict⟩

theorem fallbackPass_inv (env : Env) (index : DictIndex) (text : Str)
    (hasKanji : Bool) (st : LState) :
    FallInv index text (fallbackPass env index text hasKanji st) := by
  unfold fallbackPass
  refine foldl_pred_mem (FallInv index text) index ?_ (env, st, [])
    ⟨⟨by simp, by simp⟩, by simp, by simp⟩
  intro s d hdmem h
  dsimp only
  refine foldl_pred (FallInv index text) ?_ _ _ ?_
  · intro s2 e h2
    exact fallbackEntry_inv index text hasKanji d.1
      (List.mem_map.mpr ⟨d, hdmem, rfl⟩) s2 e h2
  · exact h

/-!  The engine never mutates the store or the clock during a lookup.  -/

/-- The immutable part of the environment: the store and the clock. -/
def EnvBase (a b : Env) : Prop := b.store = a.store ∧ b.now = a.now

theorem envBase_refl (e : Env) : EnvBase e e := ⟨Eq.refl _, Eq.refl _⟩

theorem envBase_comp {a b c : Env} (h1 : EnvBase a b) (h2 : EnvBase b c) :
    EnvBase a c := ⟨h2.1.trans h1.1, h2.2.trans h1.2⟩

theorem foldl_base {σ β : Type} (proj : σ → Env) {g : σ → β → σ}
    (hstep : ∀ s x, EnvBase (proj s) (proj (g s x))) (l : List β)
    (init : σ) : EnvBase (proj init) (proj (l.foldl g init)) :=
  foldl_rel (fun a b => EnvBase (proj a) (proj b))
    (fun _ _ _ => envBase_comp) (fun _ => envBase_refl _) hstep l init

theorem getDataStoreData_base (env : Env) (d : Str) (c : JChar) :
    EnvBase env (getDataStoreData env d c).2 := by
  unfold getDataStoreData getDataStoreDataMiss
  dsimp only
  split
  · split
    · exact envBase_refl env
    · exact ⟨rfl, rfl⟩
  · exact ⟨rfl, rfl⟩

theorem searchInDictionary_base (env : Env) (d term : Str) (mt : MatchType) :
    EnvBase env (searchInDictionary env d term mt).2 := by
  unfold searchInDictionary
  cases term with
  | nil => exact envBase_refl env
  | cons c0 rest =>
    dsimp only
    have hb := getDataStoreData_base env d c0
    split
    · exact hb
    · split
      · split
        · exact hb
        · exact hb
      · exact hb

theorem findAllReadingsForTerm_base (env : Env) (d term : Str) :
    EnvBase env (findAllReadingsForTerm env d term).2 :=
  searchInDictionary_base env d term .exact

theorem searchAllReadings_base (env : Env) (st : LState) (index : DictIndex)
    (text kanjiTerm : Str) (L : Nat) :
    EnvBase env (searchAllReadingsForTerm env st index text kanjiTerm L).1 := by
  unfold searchAllReadingsForTerm
  split
  · exact envBase_refl env
  · refine foldl_base (fun (s : Env × LState) => s.1) ?_ index
      (env, { st with kanjiSearched := st.kanjiSearched ++ [kanjiTerm] })
    intro s d
    dsimp only
    refine envBase_comp (findAllReadingsForTerm_base s.1 d.1 kanjiTerm) ?_
    refine foldl_base (fun (s : Env × LState) => s.1) ?_
      (findAllReadingsForTerm s.1 d.1 kanjiTerm).1
      ((findAllReadingsForTerm s.1 d.1 kanjiTerm).2, s.2)
    intro s2 e
    exact envBase_refl s2.1

theorem processExactEntry_base (index : DictIndex)
    (text searchText searchHira : Str) (hasKanji : Bool) (L : Nat)
    (dictName variant : Str) (acc : Env × LState × Bool)
    (e : DictionaryEntry) :
    EnvBase acc.1
      (processExactEntry index text searchText searchHira hasKanji L dictName
        variant acc e).1 := by
  unfold processExactEntry
  dsimp only
  split
  · split
    · split
      · exact searchAllReadings_base _ _ _ _ _ _
      · exact envBase_refl acc.1
    · exact envBase_refl acc.1
  · split
    · exact envBase_refl acc.1
    · exact envBase_refl acc.1

theorem processExactResults_base (index : DictIndex)
    (text searchText searchHira : Str) (hasKanji : Bool) (L : Nat)
    (init : Env × LState × Bool)
    (items : List (Str × List DictionaryEntry × Str)) :
    EnvBase init.1
      (processExactResults index text searchText searchHira hasKanji L init
        items).1 := by
  unfold processExactResults
  refine foldl_base (fun (s : Env × LState × Bool) => s.1) ?_ items init
  intro s item
  exact foldl_base (fun (s : Env × LState × Bool) => s.1)
    (fun s2 e => processExactEntry_base index text searchText searchHira
      hasKanji L item.1 item.2.2 s2 e) item.2.1 s

theorem exactFetch_base (env : Env) (dictNames variants : List Str) :
    EnvBase env (exactFetch env dictNames variants).2 := by
  unfold exactFetch
  refine foldl_base
    (fun (s : List (Str × List DictionaryEntry × Str) × Env) => s.2) ?_
    variants ([], env)
  intro s variant
  exact foldl_base
    (fun (s : List (Str × List DictionaryEntry × Str) × Env) => s.2)
    (fun s2 d => searchInDictionary_base s2.2 d variant .exact) dictNames s

theorem processDeinflectEntry_base (index : DictIndex) (text : Str)
    (hasKanji : Bool) (L : Nat) (dictName deinflected : Str)
    (acc : Env × LState × Bool) (e : DictionaryEntry) :
    EnvBase acc.1
      (processDeinflectEntry index text hasKanji L dictName deinflected acc
        e).1 := by
  unfold processDeinflectEntry
  dsimp only []
  split
  · exact envBase_refl acc.1
  · split
    · exact searchAllReadings_base _ _ _ _ _ _
    · exact envBase_refl acc.1

theorem deinflectItems_base (index : DictIndex) (text : Str)
    (hasKanji : Bool) (L : Nat) (deinflected : Str)
    (items : List (Str × List DictionaryEntry)) (env0 : Env) (st0 : LState)
    (b0 : Bool) :
    EnvBase env0
      (items.foldl
        (fun acc2 item =>
          item.2.foldl
            (processDeinflectEntry index text hasKanji L item.1 deinflected)
            acc2)
        (env0, st0, b0)).1 := by
  refine foldl_base (fun (s : Env × LState × Bool) => s.1) ?_ items
    (env0, st0, b0)
  intro s item
  exact foldl_base (fun (s : Env × LState × Bool) => s.1)
    (fun s2 e => processDeinflectEntry_base index text hasKanji L item.1
      deinflected s2 e) item.2 s

theorem deinflectPass_base (transform : Str → List Str) (index : DictIndex)
    (dictNames : List Str) (text : Str) (hasKanji : Bool) (L : Nat)
    (variants : List Str) (acc0 : Env × LState × Bool) :
    EnvBase acc0.1
      (deinflectPass transform index dictNames text hasKanji L variants
        acc0).1 := by
  unfold deinflectPass
  refine foldl_base (fun (s : Env × LState × Bool) => s.1) ?_ _ acc0
  intro s deinflected
  by_cases hv : deinflected ∈ variants
  · rw [if_pos hv]
    exact envBase_refl s.1
  · rw [if_neg hv]
    refine envBase_comp ?_ (deinflectItems_base index text hasKanji L
      deinflected _ _ _ _)
    exact foldl_base (fun (s : List (Str × List DictionaryEntry) × Env) => s.2)
      (fun a d => searchInDictionary_base a.2 d deinflected .exact)
      dictNames ([], s.1)

theorem iterTail_base (transform : Str → List Str) (index : DictIndex)
    (dictNames : List Str) (text : Str) (hasKanji : Bool) (L : Nat)
    (variants : List Str) (A : Env × LState × Bool) :
    EnvBase A.1
      (if shouldSkipDeinflections A.2.1 L A.2.2 then A
       else deinflectPass transform index dictNames text hasKanji L variants
         A).1 := by
  by_cases h : shouldSkipDeinflections A.2.1 L A.2.2 = true
  · rw [if_pos h]
    exact envBase_refl A.1
  · rw [if_neg h]
    exact deinflectPass_base transform index dictNames text hasKanji L
      variants A

theorem loopIter_base (transform : Str → List Str) (env : Env)
    (index : DictIndex) (dictNames : List Str) (text : Str) (hasKanji : Bool)
    (st : LState) (L : Nat) :
    EnvBase env (loopIter transform env index dictNames text hasKanji st L).1 := by
  unfold loopIter
  simp only []
  refine envBase_comp (exactFetch_base env dictNames
    (if List.take L text = convertKatakanaToHiragana (List.take L text)
     then [List.take L text]
     else [List.take L text,
       convertKatakanaToHiragana (List.take L text)])) ?_
  refine envBase_comp (processExactResults_base index text (List.take L text)
    (convertKatakanaToHiragana (List.take L text)) hasKanji L
    ((exactFetch env dictNames
      (if List.take L text = convertKatakanaToHiragana (List.take L text)
       then [List.take L text]
       else [List.take L text, convertKatakanaToHiragana (List.take L text)])).2,
      { st with trace := st.trace ++ [L] }, false)
    (exactFetch env dictNames
      (if List.take L text = convertKatakanaToHiragana (List.take L text)
       then [List.take L text]
       else [List.take L text,
         convertKatakanaToHiragana (List.take L text)])).1) ?_
  exact iterTail_base transform index dictNames text hasKanji L _ _

theorem lookupLoop_base (transform : Str → List Str) (index : DictIndex)
    (dictNames : List Str) (text : Str) (hasKanji : Bool) :
    ∀ (fuel : Nat) (env : Env) (st : LState),
      EnvBase env (lookupLoop transform index dictNames text hasKanji fuel env
        st).1
  | 0, env, _ => envBase_refl env
  | L + 1, env, st => by
    unfold lookupLoop
    have hb := loopIter_base transform env index dictNames text hasKanji st
      (L + 1)
    by_cases h :
        (loopIter transform env index dictNames text hasKanji st (L + 1)).2.2 = true
    · rw [if_pos h]
      exact hb
    · rw [if_neg h]
      exact envBase_comp hb
        (lookupLoop_base transform index dictNames text hasKanji L _ _)

theorem getDictionaryIndexE_base (env : Env) :
    EnvBase env (getDictionaryIndexE env).2 := ⟨rfl, rfl⟩

theorem prefetch_base (env : Env) (dictNames : List Str) (c : JChar) :
    EnvBase env (prefetch env dictNames c) := by
  unfold prefetch
  exact foldl_base (fun (e : Env) => e)
    (fun e d => getDataStoreData_base e d c) dictNames env

theorem lookupLoopRun_base (transform : Str → List Str) (env : Env)
    (text : Str) : EnvBase env (lookupLoopRun transform env text).2.1 := by
  unfold lookupLoopRun lookupSetup
  dsimp only
  refine envBase_comp (getDictionaryIndexE_base env) ?_
  refine envBase_comp (prefetch_base (getDictionaryIndexE env).2
    ((getDictionaryIndexE env).1.map (fun d => d.1)) (text.headD 0)) ?_
  exact lookupLoop_base transform _ _ text _ text.length _ initLState

theorem partialLoop_base (dict searchReading : Str) (minMatchLength : Nat) :
    ∀ (pl : Nat) (acc : PartialAcc) (env : Env),
      EnvBase env (searchByPartialReadingLoop dict searchReading
        minMatchLength pl acc env).2
  | 0, _, env => envBase_refl env
  | pl + 1, acc, env => by
    unfold searchByPartialReadingLoop
    split
    · exact envBase_refl env
    · exact envBase_comp
        (getDataStoreData_base env dict (searchReading.headD 0))
        (partialLoop_base dict searchReading minMatchLength pl _ _)

theorem searchByPartialReading_base (env : Env) (dict searchTerm : Str)
    (minMatchLength : Nat) :
    EnvBase env (searchByPartialReading env dict searchTerm minMatchLength).2 := by
  unfold searchByPartialReading searchByPartialReadingScored
  dsimp only
  split
  · exact envBase_refl env
  · exact partialLoop_base dict _ minMatchLength _ _ _

theorem fallbackEntry_base (index : DictIndex) (text : Str)
    (hasKanji : Bool) (dictName : Str)
    (acc : Env × LState × List DictionaryEntry) (e : DictionaryEntry) :
    EnvBase acc.1 (fallbackEntry index text hasKanji dictName acc e).1 := by
  unfold fallbackEntry
  dsimp only
  split
  · exact envBase_refl acc.1
  · split
    · split
      · exact searchAllReadings_base _ _ _ _ _ _
      · exact envBase_refl acc.1
    · exact envBase_refl acc.1

theorem fallbackPass_base (env : Env) (index : DictIndex) (text : Str)
    (hasKanji : Bool) (st : LState) :
    EnvBase env (fallbackPass env index text hasKanji st).1 := by
  unfold fallbackPass
  refine foldl_base (fun (s : Env × LState × List DictionaryEntry) => s.1) ?_
    index (env, st, [])
  intro s d
  dsimp only
  refine envBase_comp (searchByPartialReading_base s.1 d.1 text 2) ?_
  exact foldl_base (fun (s : Env × LState × List DictionaryEntry) => s.1)
    (fun s2 e => fallbackEntry_base index text hasKanji d.1 s2 e) _ _

/-!  Structural lemmas about lookupTerm.  -/

theorem lookupTerm_hit (transform : Str → List Str) (sc : SearchCache)
    (env : Env) (text : Str) (rec : CacheRec (List DictionaryEntry))
    (hm : mapGet sc text = some rec)
    (hf : env.now - rec.timestamp < CACHE_TTL) :
    lookupTerm transform sc env text = (rec.value, sc, env) := by
  unfold lookupTerm
  rw [hm]
  show (if env.now - rec.timestamp < CACHE_TTL then (rec.value, sc, env)
    else lookupProceed transform sc env text) = (rec.value, sc, env)
  rw [if_pos hf]

theorem lookupTerm_miss (transform : Str → List Str) (sc : SearchCache)
    (env : Env) (text : Str)
    (h : ∀ rec, mapGet sc text = some rec →
      ¬ (env.now - rec.timestamp < CACHE_TTL)) :
    lookupTerm transform sc env text = lookupProceed transform sc env text := by
  unfold lookupTerm
  cases hm : mapGet sc text with
  | none => rfl
  | some rec =>
    show (if env.now - rec.timestamp < CACHE_TTL then (rec.value, sc, env)
      else lookupProceed transform sc env text) = _
    rw [if_neg (h rec hm)]

theorem lookupProceed_main (transform : Str → List Str) (sc : SearchCache)
    (env : Env) (text : Str)
    (h : lookupMainResults transform env text ≠ []) :
    lookupProceed transform sc env text =
      (lookupMainResults transform env text, sc,
        (lookupLoopRun transform env text).2.1) := by
  unfold lookupProceed
  dsimp only
  rw [if_neg ?hc]
  · rfl
  case hc =>
    intro hc
    exact h (List.isEmpty_iff.mp hc)

theorem lookupFallbackStage_now (env1 : Env) (index : DictIndex)
    (text : Str) (st : LState) :
    (lookupFallbackStage env1 index text st).1.now = env1.now := by
  unfold lookupFallbackStage
  split
  · exact (fallbackPass_base env1 index text (containsKanji text) st).2
  · rfl

theorem lookupProceed_fb (transform : Str → List Str) (sc : SearchCache)
    (env : Env) (text : Str)
    (h : lookupMainResults transform env text = []) :
    lookupProceed transform sc env text =
      (sortBy scoreLe
          (lookupFallbackStage (lookupLoopRun transform env text).2.1
            (lookupLoopRun transform env text).1 text
            (lookupLoopRun transform env text).2.2).2.2,
        mapSet (if MAX_CACHE_SIZE ≤ sc.length then sc.tail else sc) text
          ⟨sortBy scoreLe
              (lookupFallbackStage (lookupLoopRun transform env text).2.1
                (lookupLoopRun transform env text).1 text
                (lookupLoopRun transform env text).2.2).2.2,
            (lookupFallbackStage (lookupLoopRun transform env text).2.1
              (lookupLoopRun transform env text).1 text
              (lookupLoopRun transform env text).2.2).1.now⟩,
        (lookupFallbackStage (lookupLoopRun transform env text).2.1
          (lookupLoopRun transform env text).1 text
          (lookupLoopRun transform env text).2.2).1) := by
  unfold lookupProceed
  dsimp only
  rw [if_pos (show (List.map (fun r => r.entry)
    (filterRankInfos text (lookupLoopRun transform env text).2.2.rwl)).isEmpty = true
    from List.isEmpty_iff.mpr h)]

theorem codeCmp_total (text : Str) (a b : RWL) :
    codeCmp text a b ≤ 0 ∨ codeCmp text b a ≤ 0 := by
  unfold codeCmp
  by_cases k1 : (a.readingExactMatch && !b.readingExactMatch) = true
  · left
    rw [if_pos k1]
    omega
  by_cases k1' : (!a.readingExactMatch && b.readingExactMatch) = true
  · right
    rw [if_pos (by rw [Bool.and_comm]; exact k1')]
    omega
  rw [if_neg k1, if_neg k1',
    if_neg (show ¬ ((b.readingExactMatch && !a.readingExactMatch) = true) from
      fun h => k1' (by rw [Bool.and_comm]; exact h)),
    if_neg (show ¬ ((!b.readingExactMatch && a.readingExactMatch) = true) from
      fun h => k1 (by rw [Bool.and_comm]; exact h))]
  by_cases hl : a.originalTextLength = b.originalTextLength
  case neg =>
    rw [if_pos hl, if_pos (Ne.symm hl)]
    omega
  case pos =>
    rw [if_neg (show ¬ (a.originalTextLength ≠ b.originalTextLength) from
        fun h => h hl),
      if_neg (show ¬ (b.originalTextLength ≠ a.originalTextLength) from
        fun h => h hl.symm),
      ← hl]
    by_cases k3 : (hasReadingB a.entry && !hasReadingB b.entry) = true
    · left
      rw [if_pos k3]
      omega
    by_cases k3' : (!hasReadingB a.entry && hasReadingB b.entry) = true
    · right
      rw [if_pos (by rw [Bool.and_comm]; exact k3')]
      omega
    rw [if_neg k3, if_neg k3',
      if_neg (show ¬ ((hasReadingB b.entry && !hasReadingB a.entry) = true) from
        fun h => k3' (by rw [Bool.and_comm]; exact h)),
      if_neg (show ¬ ((!hasReadingB b.entry && hasReadingB a.entry) = true) from
        fun h => k3 (by rw [Bool.and_comm]; exact h))]
    by_cases k4 : (a.fromDeinflection && !b.fromDeinflection) = true
    · left
      rw [if_pos k4]
      omega
    by_cases k4' : (!a.fromDeinflection && b.fromDeinflection) = true
    · right
      rw [if_pos (by rw [Bool.and_comm]; exact k4')]
      omega
    rw [if_neg k4, if_neg k4',
      if_neg (show ¬ ((b.fromDeinflection && !a.fromDeinflection) = true) from
        fun h => k4' (by rw [Bool.and_comm]; exact h)),
      if_neg (show ¬ ((!b.fromDeinflection && a.fromDeinflection) = true) from
        fun h => k4 (by rw [Bool.and_comm]; exact h))]
    by_cases k5 : a.entry.reading ≠ [] ∧ b.entry.reading ≠ [] ∧
        a.entry.reading = b.entry.reading ∧
        a.entry.term.length ≠ b.entry.term.length
    · rw [if_pos k5,
        if_pos ⟨k5.2.1, k5.1, k5.2.2.1.symm, Ne.symm k5.2.2.2⟩]
      omega
    · rw [if_neg k5,
        if_neg (show ¬ (b.entry.reading ≠ [] ∧ a.entry.reading ≠ [] ∧
            b.entry.reading = a.entry.reading ∧
            b.entry.term.length ≠ a.entry.term.length) from
          fun h => k5 ⟨h.2.1, h.1, h.2.2.1.symm, Ne.symm h.2.2.2⟩)]
      by_cases k6a : a.entry.reading ≠ [] ∧
          a.entry.reading = List.take a.originalTextLength text
      · by_cases k6b : b.entry.reading ≠ [] ∧
            b.entry.reading = List.take a.originalTextLength text
        · rw [if_neg (show ¬ ((a.entry.reading ≠ [] ∧
                a.entry.reading = List.take a.originalTextLength text) ∧
              ¬ (b.entry.reading ≠ [] ∧
                b.entry.reading = List.take a.originalTextLength text)) from
              fun h => h.2 k6b),
            if_neg (show ¬ (¬ (a.entry.reading ≠ [] ∧
                a.entry.reading = List.take a.originalTextLength text) ∧
              (b.entry.reading ≠ [] ∧
                b.entry.reading = List.take a.originalTextLength text)) from
              fun h => h.1 k6a),
            if_neg (show ¬ ((b.entry.reading ≠ [] ∧
                b.entry.reading = List.take a.originalTextLength text) ∧
              ¬ (a.entry.reading ≠ [] ∧
                a.entry.reading = List.take a.originalTextLength text)) from
              fun h => h.2 k6a),
            if_neg (show ¬ (¬ (b.entry.reading ≠ [] ∧
                b.entry.reading = List.take a.originalTextLength text) ∧
              (a.entry.reading ≠ [] ∧
                a.entry.reading = List.take a.originalTextLength text)) from
              fun h => h.1 k6b)]
          omega
        · left
          rw [if_pos ⟨k6a, k6b⟩]
          omega
      · by_cases k6b : b.entry.reading ≠ [] ∧
            b.entry.reading = List.take a.originalTextLength text
        · right
          rw [if_pos ⟨k6b, k6a⟩]
          omega
        · rw [if_neg (show ¬ ((a.entry.reading ≠ [] ∧
                a.entry.reading = List.take a.originalTextLength text) ∧
              ¬ (b.entry.reading ≠ [] ∧
                b.entry.reading = List.take a.originalTextLength text)) from
              fun h => k6a h.1),
            if_neg (show ¬ (¬ (a.entry.reading ≠ [] ∧
                a.entry.reading = List.take a.originalTextLength text) ∧
              (b.entry.reading ≠ [] ∧
                b.entry.reading = List.take a.originalTextLength text)) from
              fun h => k6b h.2),
            if_neg (show ¬ ((b.entry.reading ≠ [] ∧
                b.entry.reading = List.take a.originalTextLength text) ∧
              ¬ (a.entry.reading ≠ [] ∧
                a.entry.reading = List.take a.originalTextLength text)) from
              fun h => k6b h.1),
            if_neg (show ¬ (¬ (b.entry.reading ≠ [] ∧
                b.entry.reading = List.take a.originalTextLength text) ∧
              (a.entry.reading ≠ [] ∧
                a.entry.reading = List.take a.originalTextLength text)) from
              fun h => k6a h.2)]
          omega

theorem codeLe_total (text : Str) (a b : RWL) :
    codeLe text a b = true ∨ codeLe text b a = true := by
  unfold codeLe
  rcases codeCmp_total text a b with h | h
  · exact Or.inl (decide_eq_true h)
  · exact Or.inr (decide_eq_true h)

theorem lookupProceed_caches (transform : Str → List Str) (sc : SearchCache)
    (env : Env) (text : Str)
    (h : lookupMainResults transform env text = []) :
    mapGet (lookupProceed transform sc env text).2.1 text =
      some ⟨(lookupProceed transform sc env text).1, env.now⟩ := by
  rw [lookupProceed_fb transform sc env text h]
  dsimp only
  rw [mapGet_mapSet_self]
  have hnow : (lookupFallbackStage (lookupLoopRun transform env text).2.1
      (lookupLoopRun transform env text).1 text
      (lookupLoopRun transform env text).2.2).1.now = env.now := by
    rw [lookupFallbackStage_now]
    exact (lookupLoopRun_base transform env text).2
  rw [hnow]

/-!  Claim C3: the final sort order.  -/

/-- Claim C3 (amended): the ranked list a lookup returns on the main path
is ordered under the source comparator between every adjacent pair: exact
match first, then length descending, then has-reading, then
from-deinflection, then the shorter term on an identical non-empty shared
reading, then the reading equal to the query substring taken at the first
argument length, then score descending.  The comparator is not transitive
(see the counterexample), so adjacent-pair order is exactly what the
stable sort of the source guarantees. -/
theorem C3_sortedAdjacent (transform : Str → List Str) (env : Env)
    (text : Str) :
    (lookupMainInfos transform env text).Chain'
      (fun a b => codeLe text a b = true) := by
  unfold lookupMainInfos filterRankInfos
  exact chain'_sortBy (codeLe text) (codeLe_total text) _

/-- Claim C3 counterexample: on the C3 scenario the list the lookup
returns is not pairwise ordered by the seven sort keys the claim lists (a
cycle between key 5, which the code applies to entries sharing a reading
regardless of the other keys, and key 7 makes every order of the returned
entries violate some pair). -/
theorem C3_notPairwiseSorted :
    ¬ (lookupMainInfos noTransform envB queryB).Pairwise (specLe queryB) := by
  decide

/-!  Claim C1: the result cache.  -/

/-- Claim C1 (amended): a lookup whose query has a fresh result-cache
record returns the cached list verbatim with the cache and environment
untouched; on a cache miss, the final list is stored in the result cache
keyed by the raw query (timestamped at the current clock) only when the
ranked main list is empty; a lookup whose ranked main list is non-empty
returns it without writing the result cache. -/
theorem C1_resultCache (transform : Str → List Str) (sc : SearchCache)
    (env : Env) (text : Str) :
    (∀ rec, mapGet sc text = some rec →
      env.now - rec.timestamp < CACHE_TTL →
      lookupTerm transform sc env text = (rec.value, sc, env)) ∧
    (mapGet sc text = none → lookupMainResults transform env text = [] →
      mapGet (lookupTerm transform sc env text).2.1 text =
        some ⟨(lookupTerm transform sc env text).1, env.now⟩) ∧
    (mapGet sc text = none → lookupMainResults transform env text ≠ [] →
      (lookupTerm transform sc env text).2.1 = sc) := by
  refine ⟨fun rec hm hf => lookupTerm_hit transform sc env text rec hm hf,
    fun hmiss hmain => ?_, fun hmiss hmain => ?_⟩
  · have hred : lookupTerm transform sc env text =
        lookupProceed transform sc env text :=
      lookupTerm_miss transform sc env text
        (fun rec hr => absurd (hr.symm.trans hmiss) (by simp))
    rw [hred]
    exact lookupProceed_caches transform sc env text hmain
  · have hred : lookupTerm transform sc env text =
        lookupProceed transform sc env text :=
      lookupTerm_miss transform sc env text
        (fun rec hr => absurd (hr.symm.trans hmiss) (by simp))
    rw [hred, lookupProceed_main transform sc env text hmain]

/-- Claim C1 witness: on the C1 scenario the query misses the empty
result cache, the main path yields a non-empty list, and the returned
cache is unchanged. -/
theorem C1_resultCache_witness :
    mapGet ([] : SearchCache) queryA = none ∧
    lookupMainResults noTransform envA queryA ≠ [] ∧
    (lookupTerm noTransform [] envA queryA).2.1 = [] :=
  ⟨rfl, by decide,
    (C1_resultCache noTransform [] envA queryA).2.2 rfl (by decide)⟩

/-- Claim C1 counterexample: on the C1 scenario the lookup returns a
non-empty result list, yet the result cache it returns holds no record
at all, so the claim that every lookup stores its final returned list in
the result cache before returning is false (the main non-empty path
returns without caching). -/
theorem C1_mainPathUncached :
    (lookupTerm noTransform [] envA queryA).1 ≠ [] ∧
    (lookupTerm noTransform [] envA queryA).2.1 = [] := by
  decide

/-!  Claim C5: the early-termination rule of the substring loop.  -/

/-- Claim C5 (amended): the early-exit check runs only after a length is
processed, so length 2 is always processed when the query is at least two
characters long; and length 1 is processed only when no recorded match
has length 3 or more (equivalently, whenever iteration 1 ran, every
recorded match has length below 3). -/
theorem C5_earlyExit (transform : Str → List Str) (env : Env) (text : Str)
    (h2 : 2 ≤ text.length) :
    2 ∈ (lookupLoopRun transform env text).2.2.trace ∧
    (1 ∈ (lookupLoopRun transform env text).2.2.trace →
      ∀ r ∈ (lookupLoopRun transform env text).2.2.rwl,
        r.originalTextLength < 3) := by
  have hred : (lookupLoopRun transform env text).2.2 =
      (lookupLoop transform (lookupSetup env text).1
        ((lookupSetup env text).1.map (fun d => d.1)) text
        (containsKanji text) text.length (lookupSetup env text).2
        initLState).2 := rfl
  rw [hred]
  constructor
  · exact lookupLoop_two_mem transform (lookupSetup env text).1
      ((lookupSetup env text).1.map (fun d => d.1)) text (containsKanji text)
      text.length (lookupSetup env text).2 initLState h2
  · intro hone
    exact lookupLoop_no_one transform (lookupSetup env text).1
      ((lookupSetup env text).1.map (fun d => d.1)) text (containsKanji text)
      text.length (lookupSetup env text).2 initLState rfl
      (List.not_mem_nil 1) (fun _ => by decide) hone

/-- Claim C5 witness: on the C5 scenario the two-character prefix is
processed. -/
theorem C5_earlyExit_witness :
    2 ≤ queryA.length ∧
    2 ∈ (lookupLoopRun noTransform envA queryA).2.2.trace :=
  ⟨by decide, (C5_earlyExit noTransform envA queryA (by decide)).1⟩

/-- Claim C5 counterexample: on the C5 scenario the loop records a match
of length 3, and still processes length 2 afterwards (the trace of
processed lengths is exactly [3, 2]); so the claim that lengths 1 and 2
are not processed once a match at length at least 3 exists is false for
length 2 (the check runs only after the length is processed, skipping
only length 1). -/
theorem C5_lenTwoProcessed :
    (lookupLoopRun noTransform envA queryA).2.2.trace = [3, 2] ∧
    3 ≤ (lookupLoopRun noTransform envA queryA).2.2.maxLen := by
  decide

/-!  Claim C7: the bucket cache.  -/

theorem getDataStoreData_red (env : Env) (d : Str) (c : JChar) :
    getDataStoreData env d c =
      (match mapGet env.bucketCache (d ++ [uscChar] ++ [c]) with
        | some cached =>
          if env.now - cached.timestamp < DATASTORE_CACHE_TTL
          then (cached.value, env) else getDataStoreDataMiss env d c
        | none => getDataStoreDataMiss env d c) := rfl

theorem getDataStoreData_hit (env : Env) (d : Str) (c : JChar)
    (rec : CacheRec (Option Bucket))
    (hm : mapGet env.bucketCache (d ++ [uscChar] ++ [c]) = some rec)
    (hf : env.now - rec.timestamp < DATASTORE_CACHE_TTL) :
    getDataStoreData env d c = (rec.value, env) := by
  rw [getDataStoreData_red, hm]
  show (if env.now - rec.timestamp < DATASTORE_CACHE_TTL then (rec.value, env)
    else getDataStoreDataMiss env d c) = _
  rw [if_pos hf]

theorem getDataStoreData_miss (env : Env) (d : Str) (c : JChar)
    (h : ∀ rec, mapGet env.bucketCache (d ++ [uscChar] ++ [c]) = some rec →
      ¬ env.now - rec.timestamp < DATASTORE_CACHE_TTL) :
    getDataStoreData env d c = getDataStoreDataMiss env d c := by
  rw [getDataStoreData_red]
  cases hm : mapGet env.bucketCache (d ++ [uscChar] ++ [c]) with
  | none => rfl
  | some rec =>
    show (if env.now - rec.timestamp < DATASTORE_CACHE_TTL then (rec.value, env)
      else getDataStoreDataMiss env d c) = _
    rw [if_neg (h rec hm)]

theorem getDataStoreDataMiss_value (env : Env) (d : Str) (c : JChar) :
    (getDataStoreDataMiss env d c).1 =
      toBucket (dsGet env.store (bucketKey d c)) := rfl

theorem getDataStoreDataMiss_cache (env : Env) (d : Str) (c : JChar) :
    (getDataStoreDataMiss env d c).2.bucketCache =
      (if 50 < (mapSet env.bucketCache (d ++ [uscChar] ++ [c])
          ⟨(getDataStoreDataMiss env d c).1, env.now⟩).length
       then (mapSet env.bucketCache (d ++ [uscChar] ++ [c])
          ⟨(getDataStoreDataMiss env d c).1, env.now⟩).tail
       else mapSet env.bucketCache (d ++ [uscChar] ++ [c])
          ⟨(getDataStoreDataMiss env d c).1, env.now⟩) := rfl

theorem getDataStoreDataMiss_get (env : Env) (d : Str) (c : JChar)
    (h : env.bucketCache.length ≤ 50 ∨
      mapGet env.bucketCache (d ++ [uscChar] ++ [c]) = none) :
    mapGet (getDataStoreDataMiss env d c).2.bucketCache
        (d ++ [uscChar] ++ [c]) =
      some ⟨(getDataStoreDataMiss env d c).1, env.now⟩ := by
  rw [getDataStoreDataMiss_cache]
  cases hm : mapGet env.bucketCache (d ++ [uscChar] ++ [c]) with
  | none =>
    rw [mapSet_eq_append_of_none _ _ _ hm]
    by_cases hlen :
        50 < (env.bucketCache ++
          [((d ++ [uscChar] ++ [c]),
            (⟨(getDataStoreDataMiss env d c).1, env.now⟩ :
              CacheRec (Option Bucket)))]).length
    · rw [if_pos hlen]
      cases hb : env.bucketCache with
      | nil =>
        rw [hb] at hlen
        simp at hlen
      | cons a rest =>
        show mapGet (rest ++ [((d ++ [uscChar] ++ [c]), _)])
          (d ++ [uscChar] ++ [c]) = _
        apply mapGet_append_single_self
        have ht := mapGet_none_tail env.bucketCache _ hm
        rw [hb] at ht
        exact ht
    · rw [if_neg hlen]
      exact mapGet_append_single_self _ _ _ hm
  | some rec =>
    have hcap : env.bucketCache.length ≤ 50 := by
      rcases h with h | h
      · exact h
      · rw [hm] at h
        cases h
    have hlen :
        ¬ 50 < (mapSet env.bucketCache (d ++ [uscChar] ++ [c])
          (⟨(getDataStoreDataMiss env d c).1, env.now⟩ :
            CacheRec (Option Bucket))).length := by
      rw [length_mapSet_of_some _ _ _ hm]
      omega
    rw [if_neg hlen]
    exact mapGet_mapSet_self _ _ _

theorem getDataStoreDataMiss_cap (env : Env) (d : Str) (c : JChar)
    (h : env.bucketCache.length ≤ 50) :
    (getDataStoreDataMiss env d c).2.bucketCache.length ≤ 50 := by
  rw [getDataStoreDataMiss_cache]
  have hle := length_mapSet_le env.bucketCache (d ++ [uscChar] ++ [c])
    (⟨(getDataStoreDataMiss env d c).1, env.now⟩ : CacheRec (Option Bucket))
  by_cases hlen :
      50 < (mapSet env.bucketCache (d ++ [uscChar] ++ [c])
        (⟨(getDataStoreDataMiss env d c).1, env.now⟩ :
          CacheRec (Option Bucket))).length
  · rw [if_pos hlen, List.length_tail]
    omega
  · rw [if_neg hlen]
    omega

/-- Claim C7: getDataStoreData returns the cached value unchanged when a
record for the dictionary and leading character is present with age under
the 10 second TTL; otherwise it fetches the bucket from the DataStore and
(when the cache held at most 50 records) stores it under the cache key
with the current timestamp, evicting the single oldest-inserted record
exactly when the cache would exceed 50 records, so a cache holding at most
50 records still holds at most 50 after the call. -/
theorem C7_bucketCache (env : Env) (d : Str) (c : JChar) :
    (∀ rec, mapGet env.bucketCache (d ++ [uscChar] ++ [c]) = some rec →
      env.now - rec.timestamp < DATASTORE_CACHE_TTL →
      getDataStoreData env d c = (rec.value, env)) ∧
    ((∀ rec, mapGet env.bucketCache (d ++ [uscChar] ++ [c]) = some rec →
        ¬ env.now - rec.timestamp < DATASTORE_CACHE_TTL) →
      (getDataStoreData env d c).1 =
        toBucket (dsGet env.store (bucketKey d c)) ∧
      (env.bucketCache.length ≤ 50 →
        mapGet (getDataStoreData env d c).2.bucketCache
            (d ++ [uscChar] ++ [c]) =
          some ⟨(getDataStoreData env d c).1, env.now⟩)) ∧
    (env.bucketCache.length ≤ 50 →
      (getDataStoreData env d c).2.bucketCache.length ≤ 50) := by
  refine ⟨fun rec hm hf => getDataStoreData_hit env d c rec hm hf,
    fun hstale => ?_, fun hcap => ?_⟩
  · rw [getDataStoreData_miss env d c hstale]
    exact ⟨getDataStoreDataMiss_value env d c,
      fun hcap => getDataStoreDataMiss_get env d c (Or.inl hcap)⟩
  · rw [getDataStoreData_red]
    cases hm : mapGet env.bucketCache (d ++ [uscChar] ++ [c]) with
    | none => exact getDataStoreDataMiss_cap env d c hcap
    | some rec =>
      show (if env.now - rec.timestamp < DATASTORE_CACHE_TTL
        then (rec.value, env)
        else getDataStoreDataMiss env d c).2.bucketCache.length ≤ 50
      by_cases hf : env.now - rec.timestamp < DATASTORE_CACHE_TTL
      · rw [if_pos hf]
        exact hcap
      · rw [if_neg hf]
        exact getDataStoreDataMiss_cap env d c hcap

/-- Claim C7 witness: on the C7 scenario (the empty bucket cache of the
C1 environment) the call misses, fetches the stored bucket, and caches it
under the composite key at the current clock. -/
theorem C7_bucketCache_witness :
    (getDataStoreData envA dictA hA).1 =
      toBucket (dsGet envA.store (bucketKey dictA hA)) ∧
    mapGet (getDataStoreData envA dictA hA).2.bucketCache
        (dictA ++ [uscChar] ++ [hA]) =
      some ⟨(getDataStoreData envA dictA hA).1, envA.now⟩ :=
  have h := (C7_bucketCache envA dictA hA).2.1
    (fun rec hm => by cases hm)
  ⟨h.1, h.2 (by decide)⟩

/-!  Claim C4: the deinflection skip test.  -/

/-- Claim C4: when the state entering a length L holds no record at L
(as in the progressive loop, whose earlier iterations record only longer
lengths), the deinflection pass of the iteration is skipped exactly when
L is at least 4 and the exact pass recorded at least one exact,
non-deinflected match at L; and a skip never terminates the loop: the
break flag of an iteration whose skip test fired is always false. -/
theorem C4_skipTest (index : DictIndex) (transform : Str → List Str)
    (env env0 : Env) (dictNames : List Str)
    (text searchText searchHira : Str) (hasKanji : Bool) (L : Nat)
    (st st0 : LState) (found : Bool)
    (items : List (Str × List DictionaryEntry × Str))
    (hclean : ∀ r ∈ st0.rwl, r.originalTextLength ≠ L) :
    (shouldSkipDeinflections
        (processExactResults index text searchText searchHira hasKanji L
          (env0, st0, false) items).2.1 L
        (processExactResults index text searchText searchHira hasKanji L
          (env0, st0, false) items).2.2 = true ↔
      (4 ≤ L ∧ ∃ r ∈ (processExactResults index text searchText searchHira
          hasKanji L (env0, st0, false) items).2.1.rwl,
        r.originalTextLength = L ∧ r.readingExactMatch = true ∧
          r.fromDeinflection = false)) ∧
    (shouldSkipDeinflections st L found = true →
      (loopIter transform env index dictNames text hasKanji st L).2.2 =
        false) := by
  constructor
  · unfold shouldSkipDeinflections
    constructor
    · intro hs
      rw [Bool.and_eq_true, Bool.and_eq_true] at hs
      refine ⟨of_decide_eq_true hs.1.1, ?_⟩
      have hpos := of_decide_eq_true hs.2
      rcases List.exists_mem_of_length_pos hpos with ⟨r, hr⟩
      rcases List.mem_filter.mp hr with ⟨hrm, hrp⟩
      rw [Bool.and_eq_true, Bool.and_eq_true] at hrp
      exact ⟨r, hrm, of_decide_eq_true hrp.1.1, hrp.1.2, by
        have := hrp.2
        simp only [Bool.not_eq_eq_eq_not, Bool.not_true] at this
        exact this⟩
    · rintro ⟨h4, r, hrm, hrl, hre, hrd⟩
      rw [Bool.and_eq_true, Bool.and_eq_true]
      have hfound : (processExactResults index text searchText searchHira
          hasKanji L (env0, st0, false) items).2.2 = true := by
        by_cases hf : (processExactResults index text searchText searchHira
            hasKanji L (env0, st0, false) items).2.2 = true
        · exact hf
        · have hst := processExactResults_found index text searchText
            searchHira hasKanji L env0 st0 items
            (Bool.not_eq_true _ ▸ hf)
          rw [hst] at hrm
          exact absurd hrl (hclean r hrm)
      refine ⟨⟨decide_eq_true h4, hfound⟩, decide_eq_true ?_⟩
      refine List.length_pos.mpr (List.ne_nil_of_mem (List.mem_filter.mpr
        ⟨hrm, ?_⟩))
      rw [Bool.and_eq_true, Bool.and_eq_true]
      exact ⟨⟨decide_eq_true hrl, hre⟩, by rw [hrd]; rfl⟩
  · intro hs
    rw [loopIter_brk]
    apply earlyExit_false_of_three_le
    unfold shouldSkipDeinflections at hs
    rw [Bool.and_eq_true, Bool.and_eq_true] at hs
    have h4 := of_decide_eq_true hs.1.1
    omega

/-- Claim C4 witness: a four-character query matching an entry exactly at
length 4; the skip condition holds and the exact non-deinflected record
at length 4 exists. -/
theorem C4_skipTest_witness :
    4 ≤ 4 ∧ ∃ r ∈ (processExactResults [] text4 text4 text4 false 4
        (envA, initLState, false) items4).2.1.rwl,
      r.originalTextLength = 4 ∧ r.readingExactMatch = true ∧
        r.fromDeinflection = false :=
  (C4_skipTest [] noTransform envA envA [] text4 text4 text4 false 4
      initLState initLState false items4
      (fun r hr => absurd hr (List.not_mem_nil r))).1.mp (by decide)

/-!  Claim C10: distinctness of the returned triples.  -/

theorem pairwise_triple_of_nodup_ekey {l : List DictionaryEntry}
    (h : (l.map ekey).Nodup) :
    l.Pairwise (fun a b => tripleOf a ≠ tripleOf b) := by
  have hp : l.Pairwise (fun a b => ekey a ≠ ekey b) := (List.pairwise_map).mp h
  refine hp.imp ?_
  intro a b hab heq
  exact hab (ekey_congr heq)

theorem lookupProceed_distinct (transform : Str → List Str)
    (sc : SearchCache) (env : Env) (text : Str) :
    (lookupProceed transform sc env text).1.Pairwise
      (fun a b => tripleOf a ≠ tripleOf b) := by
  by_cases hmain : lookupMainResults transform env text = []
  · rw [lookupProceed_fb transform sc env text hmain]
    apply pairwise_triple_of_nodup_ekey
    refine ((sortBy_perm scoreLe _).map ekey).nodup_iff.mpr ?_
    unfold lookupFallbackStage
    split
    · exact (fallbackPass_inv (lookupLoopRun transform env text).2.1
        (lookupLoopRun transform env text).1 text (containsKanji text)
        (lookupLoopRun transform env text).2.2).1.1
    · simp
  · rw [lookupProceed_main transform sc env text hmain]
    show (lookupMainResults transform env text).Pairwise _
    unfold lookupMainResults lookupMainInfos
    apply pairwise_triple_of_nodup_map
    apply filterRankInfos_nodup
    have hred : (lookupLoopRun transform env text).2.2 =
        (lookupLoop transform (lookupSetup env text).1
          ((lookupSetup env text).1.map (fun d => d.1)) text
          (containsKanji text) text.length (lookupSetup env text).2
          initLState).2 := rfl
    rw [hred]
    exact (lookupLoop_linv transform (lookupSetup env text).1
      ((lookupSetup env text).1.map (fun d => d.1)) text (containsKanji text)
      text.length (lookupSetup env text).2 initLState
      ⟨List.nodup_nil, fun r hr => absurd hr (List.not_mem_nil r)⟩).1

/-- Claim C10: the entry list a lookup returns never holds two entries
sharing the same (dictionary, term, reading) triple, provided every list
already stored in the result cache satisfies the same property (every
path that records an entry is guarded by the shared seen-set keyed by
that triple, and the cached lists were produced by earlier lookups). -/
theorem C10_distinctTriples (transform : Str → List Str) (sc : SearchCache)
    (env : Env) (text : Str)
    (hc : ∀ rec, mapGet sc text = some rec →
      rec.value.Pairwise (fun a b => tripleOf a ≠ tripleOf b)) :
    (lookupTerm transform sc env text).1.Pairwise
      (fun a b => tripleOf a ≠ tripleOf b) := by
  unfold lookupTerm
  cases hm : mapGet sc text with
  | none => exact lookupProceed_distinct transform sc env text
  | some rec =>
    show (if env.now - rec.timestamp < CACHE_TTL then (rec.value, sc, env)
      else lookupProceed transform sc env text).1.Pairwise _
    by_cases hf : env.now - rec.timestamp < CACHE_TTL
    · rw [if_pos hf]
      exact hc rec hm
    · rw [if_neg hf]
      exact lookupProceed_distinct transform sc env text

/-- Claim C10 witness: the C1 scenario lookup applied to the empty result
cache returns a list of pairwise distinct triples. -/
theorem C10_distinctTriples_witness :
    (lookupTerm noTransform [] envA queryA).1.Pairwise
      (fun a b => tripleOf a ≠ tripleOf b) :=
  C10_distinctTriples noTransform [] envA queryA (fun rec hm => by cases hm)

/-!  Claim C2: the partial-reading fallback of the lookup.  -/

/-- Claim C2: on a result-cache miss whose ranked main list is empty and
whose query has length at least 2, every entry the lookup returns came
through the partial-reading fallback: it has a non-empty reading whose
normalized form equals, is a prefix of, or has as a prefix the normalized
query, it carries the name of an installed dictionary, and the returned
list is sorted by score descending. -/
theorem C2_fallback (transform : Str → List Str) (sc : SearchCache)
    (env : Env) (text : Str)
    (hmiss : mapGet sc text = none)
    (hmain : lookupMainResults transform env text = [])
    (hlen : 2 ≤ text.length) :
    (∀ e ∈ (lookupTerm transform sc env text).1,
      e.reading ≠ [] ∧
      (convertKatakanaToHiragana e.reading = convertKatakanaToHiragana text ∨
       convertKatakanaToHiragana text <+: convertKatakanaToHiragana e.reading ∨
       convertKatakanaToHiragana e.reading <+: convertKatakanaToHiragana text)) ∧
    (∀ e ∈ (lookupTerm transform sc env text).1,
      ∃ d ∈ (lookupLoopRun transform env text).1.map (fun p => p.1),
        e.dictionary = some d) ∧
    (lookupTerm transform sc env text).1.Pairwise
      (fun a b => b.score ≤ a.score) := by
  have hred : lookupTerm transform sc env text =
      lookupProceed transform sc env text :=
    lookupTerm_miss transform sc env text
      (fun rec hr => absurd (hr.symm.trans hmiss) (by simp))
  rw [hred, lookupProceed_fb transform sc env text hmain]
  dsimp only
  have hfi := fallbackPass_inv (lookupLoopRun transform env text).2.1
    (lookupLoopRun transform env text).1 text (containsKanji text)
    (lookupLoopRun transform env text).2.2
  have hfb : lookupFallbackStage (lookupLoopRun transform env text).2.1
      (lookupLoopRun transform env text).1 text
      (lookupLoopRun transform env text).2.2 =
      fallbackPass (lookupLoopRun transform env text).2.1
        (lookupLoopRun transform env text).1 text (containsKanji text)
        (lookupLoopRun transform env text).2.2 := by
    unfold lookupFallbackStage
    rw [if_pos hlen]
  rw [hfb]
  refine ⟨fun e he => ?_, fun e he => ?_, ?_⟩
  · have hmem := (sortBy_perm scoreLe _).mem_iff.mp he
    have hraw := hfi.2.1 e hmem
    refine ⟨hraw.1, ?_⟩
    rcases hraw.2 with h | h | h
    · exact Or.inl (congrArg convertKatakanaToHiragana h)
    · exact Or.inr (Or.inl (List.IsPrefix.map kataToHira h))
    · exact Or.inr (Or.inr (List.IsPrefix.map kataToHira h))
  · exact hfi.2.2 e ((sortBy_perm scoreLe _).mem_iff.mp he)
  · haveI : IsTrans DictionaryEntry (fun a b => b.score ≤ a.score) :=
      ⟨fun a b c h1 h2 => le_trans h2 h1⟩
    rw [← List.chain'_iff_pairwise]
    have hch := chain'_sortBy scoreLe
      (fun a b => by
        unfold scoreLe
        rcases Int.le_total b.score a.score with h | h
        · exact Or.inl (decide_eq_true h)
        · exact Or.inr (decide_eq_true h))
      (fallbackPass (lookupLoopRun transform env text).2.1
        (lookupLoopRun transform env text).1 text (containsKanji text)
        (lookupLoopRun transform env text).2.2).2.2
    exact hch.imp (fun a b h => of_decide_eq_true h)

/-- Claim C2 witness: on the C2 scenario (a two-character query with no
exact or substring match) the lookup reaches the fallback and returns a
non-empty list whose entries satisfy the normalized accept condition. -/
theorem C2_fallback_witness :
    mapGet ([] : SearchCache) queryC = none ∧
    lookupMainResults noTransform envC queryC = [] ∧
    2 ≤ queryC.length ∧
    (lookupTerm noTransform [] envC queryC).1 ≠ [] ∧
    ∀ e ∈ (lookupTerm noTransform [] envC queryC).1,
      e.reading ≠ [] ∧
      (convertKatakanaToHiragana e.reading =
          convertKatakanaToHiragana queryC ∨
       convertKatakanaToHiragana queryC <+:
          convertKatakanaToHiragana e.reading ∨
       convertKatakanaToHiragana e.reading <+:
          convertKatakanaToHiragana queryC) :=
  ⟨rfl, by decide, by decide, by decide,
    (C2_fallback noTransform [] envC queryC rfl (by decide) (by decide)).1⟩

/-!  Claim C9: deletion and orphan detection.  -/

theorem findIdx?_decomp {α : Type} (p : α → Bool) :
    ∀ (l : List α) (s i : Nat), List.findIdx? p l s = some i →
      ∃ c post, l = l.take (i - s) ++ c :: post ∧ p c = true ∧ s ≤ i
  | [], s, i, h => by rw [List.findIdx?_nil] at h; cases h
  | x :: xs, s, i, h => by
    rw [List.findIdx?_cons] at h
    by_cases hp : p x = true
    · rw [if_pos hp] at h
      injection h with h
      subst h
      exact ⟨x, xs, by simp, hp, le_refl s⟩
    · rw [if_neg hp] at h
      obtain ⟨c, post, heq, hpc, hle⟩ := findIdx?_decomp p xs (s + 1) i h
      refine ⟨c, post, ?_, hpc, by omega⟩
      have hi : i - s = (i - (s + 1)) + 1 := by omega
      rw [hi, List.take_succ_cons, List.cons_append]
      exact congrArg (x :: ·) heq

theorem parseDictName_prefix (k name : Str) (hb : dictKeyBase <+: k)
    (h : parseDictName k = some name) :
    dictKeyBase ++ name ++ [uscChar] <+: k := by
  obtain ⟨t, ht⟩ := hb
  have hdrop : k.drop dictKeyBase.length = t := by
    rw [← ht, List.drop_left]
  have h2 : (match t.findIdx? (fun c => decide (c = uscChar)) with
      | none => (none : Option Str)
      | some i => some (t.take i)) = some name := by
    rw [← hdrop]
    exact h
  cases hf : t.findIdx? (fun c => decide (c = uscChar)) with
  | none =>
    rw [hf] at h2
    cases h2
  | some i =>
    rw [hf] at h2
    injection h2 with h
    obtain ⟨c, post, heq, hpc, _⟩ := findIdx?_decomp _ t 0 i hf
    have hc : c = uscChar := of_decide_eq_true hpc
    subst hc
    rw [Nat.sub_zero] at heq
    rw [← ht, heq, ← h]
    refine ⟨post, ?_⟩
    simp [List.append_assoc]

theorem dsKeys_mapSet (s : Store) (key : Str) (v : StoreVal) :
    ∀ x ∈ dsKeys (dsSet s key v), x = key ∨ x ∈ dsKeys s := by
  induction s with
  | nil =>
    intro x hx
    simp [dsSet, mapSet, dsKeys] at hx
    exact Or.inl hx
  | cons kv rest ih =>
    obtain ⟨k', v'⟩ := kv
    intro x hx
    show x = key ∨ x ∈ dsKeys ((k', v') :: rest)
    by_cases hk : k' = key
    · have hred : dsSet ((k', v') :: rest) key v = (key, v) :: rest := by
        unfold dsSet mapSet
        rw [if_pos hk]
      rw [hred] at hx
      rcases List.mem_cons.mp hx with hx | hx
      · exact Or.inl hx
      · exact Or.inr (List.mem_cons_of_mem _ hx)
    · have hred : dsSet ((k', v') :: rest) key v =
          (k', v') :: dsSet rest key v := by
        show (if k' = key then (key, v) :: rest
          else (k', v') :: mapSet rest key v) = (k', v') :: dsSet rest key v
        rw [if_neg hk]
        rfl
      rw [hred] at hx
      rcases List.mem_cons.mp hx with hx | hx
      · exact Or.inr (List.mem_cons.mpr (Or.inl hx))
      · rcases ih x hx with hx | hx
        · exact Or.inl hx
        · exact Or.inr (List.mem_cons_of_mem _ hx)

theorem dsKeys_dsDelMany (s : Store) (ks : List Str) :
    ∀ x ∈ dsKeys (dsDelMany s ks), x ∈ dsKeys s ∧ x ∉ ks := by
  intro x hx
  rcases List.mem_map.mp hx with ⟨kv, hkv, rfl⟩
  rcases List.mem_filter.mp hkv with ⟨hmem, hq⟩
  exact ⟨List.mem_map.mpr ⟨kv, hmem, rfl⟩, of_decide_eq_true hq⟩

theorem findOrphaned_mem (s : Store) :
    ∀ k ∈ findOrphanedDictionaryKeys s,
      k ∈ dsKeys s ∧ dictKeyBase.isPrefixOf k = true ∧
        ∃ name, parseDictName k = some name ∧
          name ∉ (getDictionaryIndexS s).map (fun d => d.1) := by
  have hfold : ∀ x ∈ (((dsKeys s).filter
      (fun x => dictKeyBase.isPrefixOf x)).foldl
      (fun orphaned y =>
        match parseDictName y with
        | none => orphaned
        | some dictName =>
          if dictName ∈ (getDictionaryIndexS s).map (fun d => d.1)
          then orphaned else orphaned ++ [y]) []),
      x ∈ dsKeys s ∧ dictKeyBase.isPrefixOf x = true ∧
        ∃ name, parseDictName x = some name ∧
          name ∉ (getDictionaryIndexS s).map (fun d => d.1) := by
    refine foldl_pred_mem
      (fun acc : List Str => ∀ x ∈ acc,
        x ∈ dsKeys s ∧ dictKeyBase.isPrefixOf x = true ∧
          ∃ name, parseDictName x = some name ∧
            name ∉ (getDictionaryIndexS s).map (fun d => d.1))
      ((dsKeys s).filter (fun x => dictKeyBase.isPrefixOf x))
      ?_ [] (by intro x hx; cases hx)
    intro acc y hy hacc
    dsimp only
    cases hp : parseDictName y with
    | none => exact hacc
    | some dictName =>
      show ∀ x ∈ (if dictName ∈ (getDictionaryIndexS s).map (fun d => d.1)
          then acc else acc ++ [y]),
        x ∈ dsKeys s ∧ dictKeyBase.isPrefixOf x = true ∧
          ∃ name, parseDictName x = some name ∧
            name ∉ (getDictionaryIndexS s).map (fun d => d.1)
      by_cases hin : dictName ∈ (getDictionaryIndexS s).map (fun d => d.1)
      · rw [if_pos hin]
        exact hacc
      · rw [if_neg hin]
        intro x hx
        rcases List.mem_append.mp hx with hx | hx
        · exact hacc x hx
        · rcases List.mem_singleton.mp hx with rfl
          rcases List.mem_filter.mp hy with ⟨hys, hyp⟩
          exact ⟨hys, hyp, dictName, hp, hin⟩
  intro k hk
  exact hfold k hk

/-- Claim C9 (amended): after deleteDictionary(D) no stored key in the
namespace of D remains; and every key the orphan scan flags afterwards
was already stored before the deletion and does not embed D as its
dictionary name (pre-existing orphans of other dictionaries survive the
deletion, so the scan does not return the empty list in general). -/
theorem C9_deleteDictionary (s : Store) (dictionaryName : Str) :
    (∀ k ∈ dsKeys (deleteDictionary s dictionaryName),
      ¬ dictKeySpace dictionaryName <+: k) ∧
    (∀ k ∈ findOrphanedDictionaryKeys (deleteDictionary s dictionaryName),
      k ∈ dsKeys s ∧ parseDictName k ≠ some dictionaryName) := by
  have hspace : ∀ name : Str, dictKeyBase ++ name ++ [uscChar] =
      dictKeySpace name := by
    intro name
    unfold dictKeyBase dictKeySpace
    simp [List.append_assoc]
  constructor
  · intro k hk hpre
    have hdel := dsKeys_dsDelMany _ _ k hk
    exact hdel.2 (List.mem_filter.mpr
      ⟨hdel.1, List.isPrefixOf_iff_prefix.mpr hpre⟩)
  · intro k hk
    have horf := findOrphaned_mem _ k hk
    obtain ⟨hkeys, hbase, name, hparse, hnin⟩ := horf
    have hdel := dsKeys_dsDelMany _ _ k hkeys
    have hk1 := dsKeys_mapSet s DICTIONARY_INDEX_KEY _ k hdel.1
    constructor
    · rcases hk1 with hk1 | hk1
      · exfalso
        rw [hk1] at hbase
        exact absurd hbase (by decide)
      · exact hk1
    · intro hpd
      rw [hparse] at hpd
      injection hpd with hpd
      subst hpd
      have hpref := parseDictName_prefix k name
        (List.isPrefixOf_iff_prefix.mp hbase) hparse
      rw [hspace] at hpref
      exact hdel.2 (List.mem_filter.mpr
        ⟨hdel.1, List.isPrefixOf_iff_prefix.mpr hpref⟩)

/-- Claim C9 witness: on the C9 scenario the surviving orphaned key of
the uninstalled dictionary E was stored before the deletion of D and does
not parse to D. -/
theorem C9_deleteDictionary_witness :
    bucketKey dictE hA ∈
      findOrphanedDictionaryKeys (deleteDictionary storeD dictD) ∧
    bucketKey dictE hA ∈ dsKeys storeD ∧
    parseDictName (bucketKey dictE hA) ≠ some dictD :=
  ⟨by decide, (C9_deleteDictionary storeD dictD).2 _ (by decide)⟩

/-- Claim C9 counterexample: on the C9 scenario (dictionary D installed
next to a pre-existing orphaned bucket of an uninstalled dictionary E),
after deleteDictionary(D) the orphan scan still reports the bucket key of
E, so the claim that it returns the empty list after every deletion is
false. -/
theorem C9_orphanSurvives :
    findOrphanedDictionaryKeys (deleteDictionary storeD dictD) =
      [bucketKey dictE hA] := by
  decide

/-!  Claim C8: idempotence of re-import.  -/

theorem mapGet_cons_self {K V : Type} [DecidableEq K] (k : K) (v : V)
    (rest : List (K × V)) : mapGet ((k, v) :: rest) k = some v := by
  show (if k = k then some v else mapGet rest k) = some v
  rw [if_pos rfl]

theorem mapGet_cons_ne {K V : Type} [DecidableEq K] (k' k : K) (v : V)
    (rest : List (K × V)) (h : k' ≠ k) :
    mapGet ((k', v) :: rest) k = mapGet rest k := by
  show (if k' = k then some v else mapGet rest k) = mapGet rest k
  rw [if_neg h]

theorem mapSet_cons_self {K V : Type} [DecidableEq K] (k : K) (v' v : V)
    (rest : List (K × V)) : mapSet ((k, v') :: rest) k v = (k, v) :: rest := by
  show (if k = k then (k, v) :: rest else (k, v') :: mapSet rest k v) = _
  rw [if_pos rfl]

theorem mapSet_cons_ne {K V : Type} [DecidableEq K] (k' k : K) (v' v : V)
    (rest : List (K × V)) (h : k' ≠ k) :
    mapSet ((k', v') :: rest) k v = (k', v') :: mapSet rest k v := by
  show (if k' = k then (k, v) :: rest else (k', v') :: mapSet rest k v) = _
  rw [if_neg h]

theorem dedupPush_twice (e : DictionaryEntry) :
    (([e] ++ [e]).foldl dedupPush ([], [])).2 = [e] := by
  show (dedupPush (dedupPush ([], []) e) e).2 = [e]
  have h1 : dedupPush ([], []) e =
      ([e.term ++ [barChar] ++ e.reading], [e]) := by
    unfold dedupPush
    rw [if_neg (List.not_mem_nil _)]
    rfl
  rw [h1]
  unfold dedupPush
  rw [if_pos (List.mem_singleton.mpr rfl)]

theorem mergeBucket_nil (incoming : Bucket) :
    mergeBucket [] incoming = incoming.foldl
      (fun merged kv =>
        match mapGet merged kv.1 with
        | some existingEntries =>
          mapSet merged kv.1
            (((existingEntries ++ kv.2).foldl dedupPush ([], [])).2)
        | none => mapSet merged kv.1 kv.2) [] := rfl

theorem mergeBucket_cons_some (existing : Bucket) (k : Str)
    (es : List DictionaryEntry) (rest : Bucket)
    {ex : List DictionaryEntry} (h : mapGet existing k = some ex) :
    mergeBucket existing ((k, es) :: rest) =
      mergeBucket
        (mapSet existing k (((ex ++ es).foldl dedupPush ([], [])).2))
        rest := by
  unfold mergeBucket
  rw [List.foldl_cons]
  dsimp only
  rw [h]

theorem mergeBucket_cons_none (existing : Bucket) (k : Str)
    (es : List DictionaryEntry) (rest : Bucket)
    (h : mapGet existing k = none) :
    mergeBucket existing ((k, es) :: rest) =
      mergeBucket (mapSet existing k es) rest := by
  unfold mergeBucket
  rw [List.foldl_cons]
  dsimp only
  rw [h]

theorem mergeBucket_nil_incoming (existing : Bucket) :
    mergeBucket existing [] = existing := rfl

theorem mergeBucket_self_single (k : Str) (e : DictionaryEntry) :
    mergeBucket [(k, [e])] [(k, [e])] = [(k, [e])] := by
  rw [mergeBucket_cons_some [(k, [e])] k [e] [] (mapGet_cons_self k [e] []),
    dedupPush_twice, mapSet_cons_self, mergeBucket_nil_incoming]

theorem mergeBucket_self_pair (ka kb : Str) (e : DictionaryEntry)
    (hne : ka ≠ kb) :
    mergeBucket [(ka, [e]), (kb, [e])] [(ka, [e]), (kb, [e])] =
      [(ka, [e]), (kb, [e])] := by
  rw [mergeBucket_cons_some [(ka, [e]), (kb, [e])] ka [e] [(kb, [e])]
      (mapGet_cons_self ka [e] [(kb, [e])]),
    dedupPush_twice, mapSet_cons_self]
  rw [mergeBucket_cons_some [(ka, [e]), (kb, [e])] kb [e] []
      (by rw [mapGet_cons_ne ka kb [e] _ hne, mapGet_cons_self]),
    dedupPush_twice, mapSet_cons_ne ka kb [e] [e] _ hne, mapSet_cons_self,
    mergeBucket_nil_incoming]

theorem processRecord_red (g : Grouped) (r : RawRecord) :
    processRecord g r =
      (if r.reading ≠ [] ∧ r.reading ≠ r.term
       then groupInsert (groupInsert g (r.term.headD 0) r.term (buildEntry r))
         (r.reading.headD 0) r.reading (buildEntry r)
       else groupInsert g (r.term.headD 0) r.term (buildEntry r)) := rfl

theorem processTermBank_red (store : Store) (d : Str)
    (tb : List RawRecord) :
    processTermBank store d tb =
      (tb.foldl processRecord []).foldl
        (fun store cg => dsSet store (bucketKey d cg.1)
          (.bucket (mergeBucket
            ((toBucket (dsGet store (bucketKey d cg.1))).getD []) cg.2)))
        store := rfl

theorem groupInsert_red (g : Grouped) (c : JChar) (key : Str)
    (e : DictionaryEntry) :
    groupInsert g c key e =
      mapSet g c (mapSet ((mapGet g c).getD []) key
        ((((mapGet ((mapGet g c).getD []) key).getD []) ++ [e]))) := rfl

theorem bucketKey_inj_char (d : Str) (a b : JChar)
    (h : bucketKey d a = bucketKey d b) : a = b := by
  unfold bucketKey at h
  have h2 := List.append_cancel_left h
  injection h2

theorem countPair_single (e : DictionaryEntry) :
    countPair [e] e.term e.reading = 1 := by
  unfold countPair
  simp

theorem dsGet_dsSet_self (s : Store) (k : Str) (v : StoreVal) :
    dsGet (dsSet s k v) k = some v := mapGet_mapSet_self s k v

theorem dsGet_dsSet_ne (s : Store) (k k' : Str) (v : StoreVal)
    (h : k ≠ k') : dsGet (dsSet s k v) k' = dsGet s k' :=
  mapGet_mapSet_ne s k k' v h

/-- Claim C8: importing the same raw record (with a non-empty term) into
the same dictionary twice does not duplicate it: when the bucket of the
term leading character was absent before the first import, the list the
store holds after the second import under the term key of that bucket
contains exactly one entry with the record built (term, reading) pair —
the merge adds an incoming entry only when no existing entry of the key
shares its (term, reading) pair. -/
theorem C8_importIdem (s0 : Store) (d : Str) (r : RawRecord)
    (ht : r.term ≠ [])
    (hb1 : dsGet s0 (bucketKey d (r.term.headD 0)) = none) :
    countPair
      (storedEntries (processTermBank (processTermBank s0 d [r]) d [r]) d
        (r.term.headD 0) r.term)
      (buildEntry r).term (buildEntry r).reading = 1 := by
  have hgrp : [r].foldl processRecord [] = processRecord [] r := rfl
  by_cases hrr : r.reading ≠ [] ∧ r.reading ≠ r.term
  case neg =>
    have hgA : [r].foldl processRecord [] =
        [(r.term.headD 0, [(r.term, [buildEntry r])])] := by
      rw [hgrp, processRecord_red, if_neg hrr]
      rfl
    have hget1 : dsGet (processTermBank s0 d [r])
        (bucketKey d (r.term.headD 0)) =
        some (.bucket [(r.term, [buildEntry r])]) := by
      rw [processTermBank_red, hgA, List.foldl_cons, List.foldl_nil]
      dsimp only
      rw [dsGet_dsSet_self, hb1]
      rfl
    have hs2get : dsGet (processTermBank (processTermBank s0 d [r]) d [r])
        (bucketKey d (r.term.headD 0)) =
        some (.bucket [(r.term, [buildEntry r])]) := by
      rw [processTermBank_red (processTermBank s0 d [r]) d [r], hgA,
        List.foldl_cons, List.foldl_nil]
      dsimp only
      rw [dsGet_dsSet_self, hget1]
      show some (StoreVal.bucket (mergeBucket [(r.term, [buildEntry r])]
        [(r.term, [buildEntry r])])) = _
      rw [mergeBucket_self_single]
    unfold storedEntries
    rw [hs2get]
    show countPair ((mapGet [(r.term, [buildEntry r])] r.term).getD [])
      (buildEntry r).term (buildEntry r).reading = 1
    rw [mapGet_cons_self]
    exact countPair_single (buildEntry r)
  case pos =>
    have hnt : r.reading ≠ r.term := hrr.2
    by_cases hc : r.reading.headD 0 = r.term.headD 0
    · -- the reading shares the leading character of the term
      have hgB : [r].foldl processRecord [] =
          [(r.term.headD 0,
            [(r.term, [buildEntry r]), (r.reading, [buildEntry r])])] := by
        rw [hgrp, processRecord_red, if_pos hrr, hc]
        rw [show groupInsert [] (r.term.headD 0) r.term (buildEntry r) =
          [(r.term.headD 0, [(r.term, [buildEntry r])])] from rfl]
        rw [groupInsert_red, mapGet_cons_self]
        show mapSet [(r.term.headD 0, [(r.term, [buildEntry r])])]
            (r.term.headD 0)
            (mapSet [(r.term, [buildEntry r])] r.reading
              (((mapGet [(r.term, [buildEntry r])] r.reading).getD []) ++
                [buildEntry r])) = _
        rw [mapGet_cons_ne r.term r.reading [buildEntry r] []
          (fun hx => hnt hx.symm)]
        show mapSet [(r.term.headD 0, [(r.term, [buildEntry r])])]
            (r.term.headD 0)
            (mapSet [(r.term, [buildEntry r])] r.reading [buildEntry r]) = _
        rw [mapSet_cons_ne r.term r.reading [buildEntry r] [buildEntry r] []
          (fun hx => hnt hx.symm)]
        rw [mapSet_cons_self]
        rfl
      have hget1 : dsGet (processTermBank s0 d [r])
          (bucketKey d (r.term.headD 0)) =
          some (.bucket
            [(r.term, [buildEntry r]), (r.reading, [buildEntry r])]) := by
        rw [processTermBank_red, hgB, List.foldl_cons, List.foldl_nil]
        dsimp only
        rw [dsGet_dsSet_self, hb1]
        show some (StoreVal.bucket (mergeBucket []
          [(r.term, [buildEntry r]), (r.reading, [buildEntry r])])) = _
        rw [mergeBucket_cons_none [] r.term [buildEntry r]
          [(r.reading, [buildEntry r])] rfl]
        show some (StoreVal.bucket (mergeBucket [(r.term, [buildEntry r])]
          [(r.reading, [buildEntry r])])) = _
        rw [mergeBucket_cons_none [(r.term, [buildEntry r])] r.reading
          [buildEntry r] []
          (by
            rw [mapGet_cons_ne r.term r.reading [buildEntry r] []
              (fun hx => hnt hx.symm)]
            rfl)]
        rw [mergeBucket_nil_incoming,
          mapSet_cons_ne r.term r.reading [buildEntry r] [buildEntry r] []
            (fun hx => hnt hx.symm)]
        rfl
      have hs2get : dsGet (processTermBank (processTermBank s0 d [r]) d [r])
          (bucketKey d (r.term.headD 0)) =
          some (.bucket
            [(r.term, [buildEntry r]), (r.reading, [buildEntry r])]) := by
        rw [processTermBank_red (processTermBank s0 d [r]) d [r], hgB,
          List.foldl_cons, List.foldl_nil]
        dsimp only
        rw [dsGet_dsSet_self, hget1]
        show some (StoreVal.bucket (mergeBucket
          [(r.term, [buildEntry r]), (r.reading, [buildEntry r])]
          [(r.term, [buildEntry r]), (r.reading, [buildEntry r])])) = _
        rw [mergeBucket_self_pair r.term r.reading (buildEntry r)
          (fun hx => hnt hx.symm)]
      unfold storedEntries
      rw [hs2get]
      show countPair ((mapGet
        [(r.term, [buildEntry r]), (r.reading, [buildEntry r])]
        r.term).getD []) (buildEntry r).term (buildEntry r).reading = 1
      rw [mapGet_cons_self]
      exact countPair_single (buildEntry r)
    · -- the reading leads with a different character: two staging groups
      have hgB2 : [r].foldl processRecord [] =
          [(r.term.headD 0, [(r.term, [buildEntry r])]),
           (r.reading.headD 0, [(r.reading, [buildEntry r])])] := by
        rw [hgrp, processRecord_red, if_pos hrr]
        rw [show groupInsert [] (r.term.headD 0) r.term (buildEntry r) =
          [(r.term.headD 0, [(r.term, [buildEntry r])])] from rfl]
        rw [groupInsert_red]
        rw [mapGet_cons_ne (r.term.headD 0) (r.reading.headD 0)
          [(r.term, [buildEntry r])] [] (fun hx => hc hx.symm)]
        show mapSet [(r.term.headD 0, [(r.term, [buildEntry r])])]
            (r.reading.headD 0) [(r.reading, [buildEntry r])] = _
        rw [mapSet_cons_ne (r.term.headD 0) (r.reading.headD 0)
          [(r.term, [buildEntry r])] [(r.reading, [buildEntry r])] []
          (fun hx => hc hx.symm)]
        rfl
      have hk01 : bucketKey d (r.reading.headD 0) ≠
          bucketKey d (r.term.headD 0) :=
        fun hx => hc (bucketKey_inj_char d _ _ hx)
      have hget1 : dsGet (processTermBank s0 d [r])
          (bucketKey d (r.term.headD 0)) =
          some (.bucket [(r.term, [buildEntry r])]) := by
        rw [processTermBank_red, hgB2, List.foldl_cons, List.foldl_cons,
          List.foldl_nil]
        dsimp only
        rw [dsGet_dsSet_ne _ _ _ _ hk01, dsGet_dsSet_self, hb1]
        rfl
      have hs2get : dsGet (processTermBank (processTermBank s0 d [r]) d [r])
          (bucketKey d (r.term.headD 0)) =
          some (.bucket [(r.term, [buildEntry r])]) := by
        rw [processTermBank_red (processTermBank s0 d [r]) d [r], hgB2,
          List.foldl_cons, List.foldl_cons, List.foldl_nil]
        dsimp only
        rw [dsGet_dsSet_ne _ _ _ _ hk01, dsGet_dsSet_self, hget1]
        show some (StoreVal.bucket (mergeBucket [(r.term, [buildEntry r])]
          [(r.term, [buildEntry r])])) = _
        rw [mergeBucket_self_single]
      unfold storedEntries
      rw [hs2get]
      show countPair ((mapGet [(r.term, [buildEntry r])] r.term).getD [])
        (buildEntry r).term (buildEntry r).reading = 1
      rw [mapGet_cons_self]
      exact countPair_single (buildEntry r)

/-- Claim C8 witness: importing the C8 record twice into an empty store
leaves exactly one entry with its (term, reading) pair under its term
key. -/
theorem C8_importIdem_witness :
    recA.term ≠ [] ∧
    countPair
      (storedEntries (processTermBank (processTermBank [] dictA [recA])
        dictA [recA]) dictA (recA.term.headD 0) recA.term)
      (buildEntry recA).term (buildEntry recA).reading = 1 :=
  ⟨by decide, C8_importIdem [] dictA recA (by decide) rfl⟩

/-!  Claim C6: the partial-reading search.  -/

theorem keys_mapSet_sub {K V : Type} [DecidableEq K] (m : List (K × V))
    (k : K) (v : V) :
    ∀ x ∈ (mapSet m k v).map (fun kv => kv.1),
      x = k ∨ x ∈ m.map (fun kv => kv.1) := by
  induction m with
  | nil =>
    intro x hx
    simp [mapSet] at hx
    exact Or.inl hx
  | cons kv rest ih =>
    obtain ⟨k', v'⟩ := kv
    intro x hx
    by_cases hk : k' = k
    · have hred : mapSet ((k', v') :: rest) k v = (k, v) :: rest := by
        show (if k' = k then (k, v) :: rest
          else (k', v') :: mapSet rest k v) = _
        rw [if_pos hk]
      rw [hred, List.map_cons] at hx
      rcases List.mem_cons.mp hx with hx | hx
      · exact Or.inl hx
      · exact Or.inr (List.mem_cons_of_mem _ hx)
    · have hred : mapSet ((k', v') :: rest) k v =
          (k', v') :: mapSet rest k v := by
        show (if k' = k then (k, v) :: rest
          else (k', v') :: mapSet rest k v) = _
        rw [if_neg hk]
      rw [hred, List.map_cons] at hx
      rcases List.mem_cons.mp hx with hx | hx
      · exact Or.inr (List.mem_cons.mpr (Or.inl hx))
      · rcases ih x hx with hx | hx
        · exact Or.inl hx
        · exact Or.inr (List.mem_cons_of_mem _ hx)

theorem nodupKeys_mapSet {K V : Type} [DecidableEq K] (m : List (K × V))
    (k : K) (v : V) (h : NodupKeys m) : NodupKeys (mapSet m k v) := by
  induction m with
  | nil => simp [NodupKeys, mapSet]
  | cons kv rest ih =>
    obtain ⟨k', v'⟩ := kv
    unfold NodupKeys at h ⊢
    rw [List.map_cons] at h
    by_cases hk : k' = k
    · have hred : mapSet ((k', v') :: rest) k v = (k, v) :: rest := by
        show (if k' = k then (k, v) :: rest
          else (k', v') :: mapSet rest k v) = _
        rw [if_pos hk]
      rw [hred, List.map_cons]
      subst hk
      exact h
    · have hred : mapSet ((k', v') :: rest) k v =
          (k', v') :: mapSet rest k v := by
        show (if k' = k then (k, v) :: rest
          else (k', v') :: mapSet rest k v) = _
        rw [if_neg hk]
      rw [hred, List.map_cons]
      rcases List.nodup_cons.mp h with ⟨hnin, hrest⟩
      refine List.nodup_cons.mpr ⟨?_, ih hrest⟩
      intro hmem
      rcases keys_mapSet_sub rest k v k' hmem with h1 | h1
      · exact hk h1
      · exact hnin h1

theorem nodupKeys_tail {K V : Type} (m : List (K × V)) (h : NodupKeys m) :
    NodupKeys m.tail := by
  cases m with
  | nil => exact h
  | cons kv rest =>
    unfold NodupKeys at h ⊢
    rw [List.map_cons] at h
    exact (List.nodup_cons.mp h).2

theorem mapGet_none_of_keys {K V : Type} [DecidableEq K] (m : List (K × V))
    (k : K) (h : k ∉ m.map (fun kv => kv.1)) : mapGet m k = none := by
  induction m with
  | nil => rfl
  | cons kv rest ih =>
    obtain ⟨k', v'⟩ := kv
    rw [List.map_cons] at h
    show (if k' = k then some v' else mapGet rest k) = none
    rw [if_neg (fun hx => h (List.mem_cons.mpr (Or.inl hx.symm)))]
    exact ih (fun hx => h (List.mem_cons.mpr (Or.inr hx)))

theorem mapGet_tail_cases {K V : Type} [DecidableEq K] (m : List (K × V))
    (k : K) {v : V} (hn : NodupKeys m) (hm : mapGet m k = some v) :
    mapGet m.tail k = some v ∨ mapGet m.tail k = none := by
  cases m with
  | nil => cases hm
  | cons kv rest =>
    obtain ⟨k', v'⟩ := kv
    show mapGet rest k = some v ∨ mapGet rest k = none
    by_cases hk : k' = k
    · right
      subst hk
      apply mapGet_none_of_keys
      unfold NodupKeys at hn
      rw [List.map_cons] at hn
      exact (List.nodup_cons.mp hn).1
    · left
      rw [mapGet_cons_ne k' k v' rest hk] at hm
      exact hm

theorem getDataStoreDataMiss_nodup (env : Env) (d : Str) (c : JChar)
    (h : NodupKeys env.bucketCache) :
    NodupKeys (getDataStoreDataMiss env d c).2.bucketCache := by
  rw [getDataStoreDataMiss_cache]
  by_cases hlen : 50 < (mapSet env.bucketCache (d ++ [uscChar] ++ [c])
      (⟨(getDataStoreDataMiss env d c).1, env.now⟩ :
        CacheRec (Option Bucket))).length
  · rw [if_pos hlen]
    exact nodupKeys_tail _ (nodupKeys_mapSet _ _ _ h)
  · rw [if_neg hlen]
    exact nodupKeys_mapSet _ _ _ h

theorem getDataStoreData_nodup (env : Env) (d : Str) (c : JChar)
    (h : NodupKeys env.bucketCache) :
    NodupKeys (getDataStoreData env d c).2.bucketCache := by
  rw [getDataStoreData_red]
  cases hm : mapGet env.bucketCache (d ++ [uscChar] ++ [c]) with
  | none => exact getDataStoreDataMiss_nodup env d c h
  | some rec =>
    show NodupKeys (if env.now - rec.timestamp < DATASTORE_CACHE_TTL
      then ((rec.value, env) : Option Bucket × Env)
      else getDataStoreDataMiss env d c).2.bucketCache
    by_cases hf : env.now - rec.timestamp < DATASTORE_CACHE_TTL
    · rw [if_pos hf]
      exact h
    · rw [if_neg hf]
      exact getDataStoreDataMiss_nodup env d c h

theorem getDataStoreDataMiss_get_cases (env : Env) (d : Str) (c : JChar)
    (h : NodupKeys env.bucketCache) :
    mapGet (getDataStoreDataMiss env d c).2.bucketCache
        (d ++ [uscChar] ++ [c]) =
      some ⟨(getDataStoreDataMiss env d c).1, env.now⟩ ∨
    mapGet (getDataStoreDataMiss env d c).2.bucketCache
        (d ++ [uscChar] ++ [c]) = none := by
  rw [getDataStoreDataMiss_cache]
  by_cases hlen : 50 < (mapSet env.bucketCache (d ++ [uscChar] ++ [c])
      (⟨(getDataStoreDataMiss env d c).1, env.now⟩ :
        CacheRec (Option Bucket))).length
  · rw [if_pos hlen]
    exact mapGet_tail_cases _ _ (nodupKeys_mapSet _ _ _ h)
      (mapGet_mapSet_self _ _ _)
  · rw [if_neg hlen]
    exact Or.inl (mapGet_mapSet_self _ _ _)

theorem getDataStoreDataMiss_now (env : Env) (d : Str) (c : JChar) :
    (getDataStoreDataMiss env d c).2.now = env.now := rfl

theorem getDataStoreDataMiss_store (env : Env) (d : Str) (c : JChar) :
    (getDataStoreDataMiss env d c).2.store = env.store := rfl

theorem getDataStoreData_stable_miss (env : Env) (d : Str) (c : JChar)
    (h : NodupKeys env.bucketCache) :
    (getDataStoreData (getDataStoreDataMiss env d c).2 d c).1 =
      (getDataStoreDataMiss env d c).1 := by
  rcases getDataStoreDataMiss_get_cases env d c h with hg | hg
  · have hhit := getDataStoreData_hit (getDataStoreDataMiss env d c).2 d c
      ⟨(getDataStoreDataMiss env d c).1, env.now⟩ hg
      (by
        rw [getDataStoreDataMiss_now]
        show env.now - env.now < DATASTORE_CACHE_TTL
        rw [sub_self]
        decide)
    rw [hhit]
  · have hstale : ∀ rec,
        mapGet (getDataStoreDataMiss env d c).2.bucketCache
          (d ++ [uscChar] ++ [c]) = some rec →
        ¬ (getDataStoreDataMiss env d c).2.now - rec.timestamp <
          DATASTORE_CACHE_TTL :=
      fun rec hr => absurd (hr.symm.trans hg) (by simp)
    rw [getDataStoreData_miss _ d c hstale, getDataStoreDataMiss_value,
      getDataStoreDataMiss_value, getDataStoreDataMiss_store]

theorem getDataStoreData_stable (env : Env) (d : Str) (c : JChar)
    (h : NodupKeys env.bucketCache) :
    (getDataStoreData (getDataStoreData env d c).2 d c).1 =
      (getDataStoreData env d c).1 := by
  rw [getDataStoreData_red env d c]
  cases hm : mapGet env.bucketCache (d ++ [uscChar] ++ [c]) with
  | none => exact getDataStoreData_stable_miss env d c h
  | some rec =>
    show (getDataStoreData
      (if env.now - rec.timestamp < DATASTORE_CACHE_TTL
        then ((rec.value, env) : Option Bucket × Env)
        else getDataStoreDataMiss env d c).2 d c).1 =
      (if env.now - rec.timestamp < DATASTORE_CACHE_TTL
        then ((rec.value, env) : Option Bucket × Env)
        else getDataStoreDataMiss env d c).1
    by_cases hf : env.now - rec.timestamp < DATASTORE_CACHE_TTL
    · rw [if_pos hf]
      show (getDataStoreData env d c).1 = rec.value
      rw [getDataStoreData_hit env d c rec hm hf]
    · rw [if_neg hf]
      exact getDataStoreData_stable_miss env d c h

theorem partialStep_red (mm : Nat) (pfx : Str) (plen : Nat)
    (acc : PartialAcc) (e : DictionaryEntry) :
    partialReadingStep mm pfx plen acc e =
      (if pkey e ∈ acc.seen then acc
       else if mm ≤ (getCommonPrefix pfx
           (convertKatakanaToHiragana e.reading)).length
       then (⟨acc.scored ++
           [(e, ((getCommonPrefix pfx
             (convertKatakanaToHiragana e.reading)).length : Int) * 1000 +
             (plen : Int))],
           acc.seen ++ [pkey e]⟩ : PartialAcc)
       else acc) := rfl

theorem partialStep_mono (mm : Nat) (pfx : Str) (plen : Nat)
    (acc : PartialAcc) (e : DictionaryEntry) :
    (∀ p ∈ acc.scored, p ∈ (partialReadingStep mm pfx plen acc e).scored) ∧
    (∀ k ∈ acc.seen, k ∈ (partialReadingStep mm pfx plen acc e).seen) := by
  rw [partialStep_red]
  by_cases hk : pkey e ∈ acc.seen
  · rw [if_pos hk]
    exact ⟨fun p hp => hp, fun k hkk => hkk⟩
  · rw [if_neg hk]
    by_cases hcm : mm ≤ (getCommonPrefix pfx
        (convertKatakanaToHiragana e.reading)).length
    · rw [if_pos hcm]
      exact ⟨fun p hp => List.mem_append.mpr (Or.inl hp),
        fun k hkk => List.mem_append.mpr (Or.inl hkk)⟩
    · rw [if_neg hcm]
      exact ⟨fun p hp => hp, fun k hkk => hkk⟩

theorem partialStep_inv (q : Str) (plen : Nat) (h2 : 2 ≤ plen)
    (hle : plen ≤ q.length) (acc : PartialAcc) (e : DictionaryEntry)
    (h : PAccInv q acc) :
    PAccInv q (partialReadingStep 2 (q.take plen) plen acc e) := by
  obtain ⟨hcorr, hnod, hsound⟩ := h
  rw [partialStep_red]
  by_cases hk : pkey e ∈ acc.seen
  · rw [if_pos hk]
    exact ⟨hcorr, hnod, hsound⟩
  · rw [if_neg hk]
    by_cases hcm : 2 ≤ (getCommonPrefix (q.take plen)
        (convertKatakanaToHiragana e.reading)).length
    · rw [if_pos hcm]
      refine ⟨?_, ?_, ?_⟩
      · show acc.seen ++ [pkey e] = _
        rw [List.map_append, hcorr]
        rfl
      · show (acc.seen ++ [pkey e]).Nodup
        refine List.Nodup.append hnod (List.nodup_singleton _) ?_
        intro a ha hb
        rw [List.mem_singleton] at hb
        subst hb
        exact hk ha
      · intro p hp
        rcases List.mem_append.mp hp with hp | hp
        · exact hsound p hp
        · rw [List.mem_singleton] at hp
          subst hp
          exact ⟨plen, h2, hle, hcm, rfl⟩
    · rw [if_neg hcm]
      exact ⟨hcorr, hnod, hsound⟩

theorem partialStep_establish (mm : Nat) (pfx : Str) (plen : Nat)
    (acc : PartialAcc) (e : DictionaryEntry)
    (hcm : mm ≤ (getCommonPrefix pfx
      (convertKatakanaToHiragana e.reading)).length) :
    pkey e ∈ (partialReadingStep mm pfx plen acc e).seen := by
  rw [partialStep_red]
  by_cases hk : pkey e ∈ acc.seen
  · rw [if_pos hk]
    exact hk
  · rw [if_neg hk, if_pos hcm]
    exact List.mem_append.mpr (Or.inr (List.mem_singleton.mpr rfl))

theorem bucketFold_inv (q : Str) (plen : Nat) (h2 : 2 ≤ plen)
    (hle : plen ≤ q.length) (b : Bucket) (acc : PartialAcc)
    (h : PAccInv q acc) :
    PAccInv q (b.foldl (fun acc kv =>
      kv.2.foldl (partialReadingStep 2 (q.take plen) plen) acc) acc) := by
  refine foldl_pred (PAccInv q) ?_ b acc h
  intro s kv hs
  refine foldl_pred (PAccInv q) ?_ kv.2 s hs
  intro s2 e hs2
  exact partialStep_inv q plen h2 hle s2 e hs2

theorem bucketFold_mono (pfx : Str) (plen mm : Nat) (b : Bucket)
    (acc : PartialAcc) :
    (∀ p ∈ acc.scored, p ∈ (b.foldl (fun acc kv =>
      kv.2.foldl (partialReadingStep mm pfx plen) acc) acc).scored) ∧
    (∀ k ∈ acc.seen, k ∈ (b.foldl (fun acc kv =>
      kv.2.foldl (partialReadingStep mm pfx plen) acc) acc).seen) := by
  have hgen := foldl_pred (fun s : PartialAcc =>
      (∀ p ∈ acc.scored, p ∈ s.scored) ∧ (∀ k ∈ acc.seen, k ∈ s.seen))
    (g := fun acc kv => kv.2.foldl (partialReadingStep mm pfx plen) acc) ?_
    b acc ⟨fun p hp => hp, fun k hk => hk⟩
  · exact hgen
  · intro s kv hs
    refine foldl_pred (fun s : PartialAcc =>
      (∀ p ∈ acc.scored, p ∈ s.scored) ∧ (∀ k ∈ acc.seen, k ∈ s.seen))
      ?_ kv.2 s hs
    intro s2 e hs2
    have hm := partialStep_mono mm pfx plen s2 e
    exact ⟨fun p hp => hm.1 p (hs2.1 p hp), fun k hk => hm.2 k (hs2.2 k hk)⟩

theorem bucketFold_establish (q : Str) (plen : Nat) (b : Bucket)
    (kv : Str × List DictionaryEntry) (hkv : kv ∈ b)
    (e : DictionaryEntry) (he : e ∈ kv.2)
    (hcm : 2 ≤ (getCommonPrefix (q.take plen)
      (convertKatakanaToHiragana e.reading)).length) (acc : PartialAcc) :
    pkey e ∈ (b.foldl (fun acc kv =>
      kv.2.foldl (partialReadingStep 2 (q.take plen) plen) acc) acc).seen := by
  refine foldl_establish (fun _ => True) (fun s => pkey e ∈ s.seen)
    (fun _ _ _ => trivial) ?_ kv ?_ b hkv acc trivial
  · intro s kv2 hs
    exact foldl_pred (fun s2 : PartialAcc => pkey e ∈ s2.seen)
      (fun s2 e2 hs2 => (partialStep_mono 2 (q.take plen) plen s2 e2).2 _ hs2)
      kv2.2 s hs
  · intro s _
    refine foldl_establish (fun _ => True) (fun s2 => pkey e ∈ s2.seen)
      (fun _ _ _ => trivial) ?_ e ?_ kv.2 he s trivial
    · intro s2 e2 hs2
      exact (partialStep_mono 2 (q.take plen) plen s2 e2).2 _ hs2
    · intro s2 _
      exact partialStep_establish 2 (q.take plen) plen s2 e hcm

theorem partialLoop_red (dict q : Str) (mm pl : Nat) (acc : PartialAcc)
    (env : Env) :
    searchByPartialReadingLoop dict q mm (pl + 1) acc env =
      (if pl + 1 < mm then (acc, env)
       else searchByPartialReadingLoop dict q mm pl
         (match (getDataStoreData env dict (q.headD 0)).1 with
          | none => acc
          | some bucket => bucket.foldl (fun acc kv =>
              kv.2.foldl (partialReadingStep mm (q.take (pl + 1)) (pl + 1))
                acc) acc)
         (getDataStoreData env dict (q.headD 0)).2) := rfl

theorem partialLoop_master (dict q : Str) (B : Option Bucket) :
    ∀ (fuel : Nat) (acc : PartialAcc) (env : Env),
      NodupKeys env.bucketCache →
      (getDataStoreData env dict (q.headD 0)).1 = B →
      fuel ≤ q.length →
      PAccInv q acc →
      PAccInv q (searchByPartialReadingLoop dict q 2 fuel acc env).1 ∧
      (∀ p ∈ acc.scored,
        p ∈ (searchByPartialReadingLoop dict q 2 fuel acc env).1.scored) ∧
      (∀ b, B = some b → ∀ kv ∈ b, ∀ e ∈ kv.2, ∀ pl, 2 ≤ pl → pl ≤ fuel →
        2 ≤ (getCommonPrefix (q.take pl)
          (convertKatakanaToHiragana e.reading)).length →
        pkey e ∈ (searchByPartialReadingLoop dict q 2 fuel acc env).1.seen)
  | 0, acc, env, hn, hB, hf, hinv => by
    refine ⟨hinv, fun p hp => hp, ?_⟩
    intro b hb kv hkv e he pl hp2 hple hcm
    omega
  | pl + 1, acc, env, hn, hB, hf, hinv => by
    rw [partialLoop_red]
    by_cases hmm : pl + 1 < 2
    · rw [if_pos hmm]
      refine ⟨hinv, fun p hp => hp, ?_⟩
      intro b hb kv hkv e he pl' hp2 hple hcm
      omega
    · rw [if_neg hmm, hB]
      have hn2 : NodupKeys (getDataStoreData env dict (q.headD 0)).2.bucketCache :=
        getDataStoreData_nodup env dict (q.headD 0) hn
      have hB2 : (getDataStoreData (getDataStoreData env dict
          (q.headD 0)).2 dict (q.headD 0)).1 = B := by
        rw [getDataStoreData_stable env dict (q.headD 0) hn, hB]
      have hf2 : pl ≤ q.length := by omega
      cases B with
      | none =>
        obtain ⟨hinv2, hmono2, _⟩ := partialLoop_master dict q none pl acc
          (getDataStoreData env dict (q.headD 0)).2 hn2 hB2 hf2 hinv
        refine ⟨hinv2, hmono2, ?_⟩
        intro b hb
        cases hb
      | some b0 =>
        have h2le : 2 ≤ pl + 1 := by omega
        have hinvA : PAccInv q (b0.foldl (fun acc kv =>
            kv.2.foldl (partialReadingStep 2 (q.take (pl + 1)) (pl + 1))
              acc) acc) :=
          bucketFold_inv q (pl + 1) h2le hf b0 acc hinv
        obtain ⟨hinv2, hmono2, hcomp2⟩ := partialLoop_master dict q
          (some b0) pl _
          (getDataStoreData env dict (q.headD 0)).2 hn2 hB2 hf2 hinvA
        have hmonoA := bucketFold_mono (q.take (pl + 1)) (pl + 1) 2 b0 acc
        refine ⟨hinv2, ?_, ?_⟩
        · intro p hp
          exact hmono2 p (hmonoA.1 p hp)
        · intro b hb kv hkv e he pl' hp2 hple hcm
          injection hb with hb
          subst hb
          by_cases hple2 : pl' ≤ pl
          · exact hcomp2 b0 rfl kv hkv e he pl' hp2 hple2 hcm
          · have hpl' : pl' = pl + 1 := by omega
            subst hpl'
            have hseenA : pkey e ∈ (b0.foldl (fun acc kv =>
                kv.2.foldl (partialReadingStep 2 (q.take (pl + 1))
                  (pl + 1)) acc) acc).seen :=
              bucketFold_establish q (pl + 1) b0 kv hkv e he hcm acc
            rw [hinvA.1] at hseenA
            rcases List.mem_map.mp hseenA with ⟨p, hpmem, hpk⟩
            have hpr := hmono2 p hpmem
            rw [(hinv2).1]
            exact List.mem_map.mpr ⟨p, hpr, hpk⟩

theorem searchByPartialReadingScored_red (env : Env) (dict : Str)
    (searchTerm : Str) (mm : Nat) :
    searchByPartialReadingScored env dict searchTerm mm =
      (if (convertKatakanaToHiragana searchTerm).length < mm
       then ([], env)
       else (sortBy (fun a b => decide (b.2 ≤ a.2))
          (searchByPartialReadingLoop dict
            (convertKatakanaToHiragana searchTerm) mm
            (convertKatakanaToHiragana searchTerm).length ⟨[], []⟩ env).1.scored,
        (searchByPartialReadingLoop dict
          (convertKatakanaToHiragana searchTerm) mm
          (convertKatakanaToHiragana searchTerm).length ⟨[], []⟩ env).2)) := rfl

/-- Claim C6: the partial-reading search returns the empty list when the
normalized query is shorter than the minimum length 2; otherwise it walks
every prefix length from the normalized length down to 2 without
stopping early, records an entry at most once (keys term-bar-reading are
pairwise distinct in the output), gives every recorded pair a score of
common-prefix-length times 1000 plus the prefix length at a qualifying
prefix (common prefix at least 2), records every entry of the leading
character bucket that qualifies at some prefix length in range, and
returns the records sorted by score descending.  The bucket-cache key
distinctness hypothesis is the invariant the program's cache maintains. -/
theorem C6_partialSearch (env : Env) (dict : Str) (searchTerm : Str)
    (hn : NodupKeys env.bucketCache) :
    ((convertKatakanaToHiragana searchTerm).length < 2 →
      (searchByPartialReading env dict searchTerm 2).1 = []) ∧
    ((searchByPartialReading env dict searchTerm 2).1.map pkey).Nodup ∧
    (∀ p ∈ (searchByPartialReadingScored env dict searchTerm 2).1,
      ∃ pl, 2 ≤ pl ∧ pl ≤ (convertKatakanaToHiragana searchTerm).length ∧
        2 ≤ (getCommonPrefix
          ((convertKatakanaToHiragana searchTerm).take pl)
          (convertKatakanaToHiragana p.1.reading)).length ∧
        p.2 = ((getCommonPrefix
          ((convertKatakanaToHiragana searchTerm).take pl)
          (convertKatakanaToHiragana p.1.reading)).length : Int) * 1000 +
          pl) ∧
    (∀ b, (getDataStoreData env dict
        ((convertKatakanaToHiragana searchTerm).headD 0)).1 = some b →
      ∀ kv ∈ b, ∀ e ∈ kv.2, ∀ pl, 2 ≤ pl →
        pl ≤ (convertKatakanaToHiragana searchTerm).length →
        2 ≤ (getCommonPrefix
          ((convertKatakanaToHiragana searchTerm).take pl)
          (convertKatakanaToHiragana e.reading)).length →
        ∃ e' ∈ (searchByPartialReading env dict searchTerm 2).1,
          pkey e' = pkey e) ∧
    (searchByPartialReadingScored env dict searchTerm 2).1.Pairwise
      (fun a b => b.2 ≤ a.2) := by
  by_cases hq : (convertKatakanaToHiragana searchTerm).length < 2
  · have hred : searchByPartialReading env dict searchTerm 2 =
        (([] : List (DictionaryEntry × Int)).map (fun p => p.1),
          (searchByPartialReadingScored env dict searchTerm 2).2) := by
      unfold searchByPartialReading
      rw [searchByPartialReadingScored_red, if_pos hq]
    have hred2 : (searchByPartialReadingScored env dict searchTerm 2).1 =
        [] := by
      rw [searchByPartialReadingScored_red, if_pos hq]
    refine ⟨fun _ => ?_, ?_, ?_, ?_, ?_⟩
    · rw [hred]
      rfl
    · rw [hred]
      show (([] : List DictionaryEntry).map pkey).Nodup
      exact List.nodup_nil
    · rw [hred2]
      intro p hp
      cases hp
    · intro b hb kv hkv e he pl hp2 hple hcm
      omega
    · rw [hred2]
      exact List.Pairwise.nil
  · obtain ⟨hinvR, hmonoR, hcompR⟩ := partialLoop_master dict
      (convertKatakanaToHiragana searchTerm)
      ((getDataStoreData env dict
        ((convertKatakanaToHiragana searchTerm).headD 0)).1)
      (convertKatakanaToHiragana searchTerm).length ⟨[], []⟩ env hn rfl
      (le_refl _) ⟨rfl, List.nodup_nil, fun p hp => absurd hp
        (List.not_mem_nil p)⟩
    have hscored : (searchByPartialReadingScored env dict searchTerm 2).1 =
        sortBy (fun a b => decide (b.2 ≤ a.2))
          (searchByPartialReadingLoop dict
            (convertKatakanaToHiragana searchTerm) 2
            (convertKatakanaToHiragana searchTerm).length ⟨[], []⟩
            env).1.scored := by
      rw [searchByPartialReadingScored_red, if_neg hq]
    have hperm := sortBy_perm (fun a b : DictionaryEntry × Int =>
        decide (b.2 ≤ a.2))
      (searchByPartialReadingLoop dict
        (convertKatakanaToHiragana searchTerm) 2
        (convertKatakanaToHiragana searchTerm).length ⟨[], []⟩ env).1.scored
    refine ⟨fun hx => absurd hx hq, ?_, ?_, ?_, ?_⟩
    · show ((searchByPartialReadingScored env dict
        searchTerm 2).1.map (fun p => p.1)).map pkey |>.Nodup
      rw [hscored, List.map_map]
      refine (hperm.map (fun p => pkey p.1)).nodup_iff.mpr ?_
      rw [← hinvR.1]
      exact hinvR.2.1
    · intro p hp
      rw [hscored] at hp
      exact hinvR.2.2 p (hperm.mem_iff.mp hp)
    · intro b hb kv hkv e he pl hp2 hple hcm
      have hseen := hcompR b hb kv hkv e he pl hp2 hple hcm
      rw [hinvR.1] at hseen
      rcases List.mem_map.mp hseen with ⟨p, hpmem, hpk⟩
      refine ⟨p.1, ?_, hpk⟩
      show p.1 ∈ (searchByPartialReadingScored env dict
        searchTerm 2).1.map (fun p => p.1)
      rw [hscored]
      exact List.mem_map.mpr ⟨p, hperm.mem_iff.mpr hpmem, rfl⟩
    · haveI : IsTrans (DictionaryEntry × Int)
          (fun a b => b.2 ≤ a.2) := ⟨fun a b c h1 h2 => le_trans h2 h1⟩
      rw [← List.chain'_iff_pairwise, hscored]
      have hch := chain'_sortBy (fun a b : DictionaryEntry × Int =>
          decide (b.2 ≤ a.2))
        (fun a b => by
          rcases Int.le_total b.2 a.2 with h | h
          · exact Or.inl (decide_eq_true h)
          · exact Or.inr (decide_eq_true h))
        (searchByPartialReadingLoop dict
          (convertKatakanaToHiragana searchTerm) 2
          (convertKatakanaToHiragana searchTerm).length ⟨[], []⟩
          env).1.scored
      exact hch.imp (fun a b h => of_decide_eq_true h)

/-- Claim C6 witness: on the C2 scenario dictionary the bucket of the
normalized query leading character holds one qualifying entry at prefix
length 2, and the partial-reading search returns it. -/
theorem C6_partialSearch_witness :
    NodupKeys envC.bucketCache ∧
    ∃ e' ∈ (searchByPartialReading envC dictA queryC 2).1,
      pkey e' = pkey ⟨[kMen], [hMe, hN, hShi], [], [], 3, none⟩ :=
  ⟨List.nodup_nil,
    (C6_partialSearch envC dictA queryC List.nodup_nil).2.2.2.1
      [([hMe, hN, hShi], [⟨[kMen], [hMe, hN, hShi], [], [], 3, none⟩])]
      (by decide)
      ([hMe, hN, hShi], [⟨[kMen], [hMe, hN, hShi], [], [], 3, none⟩])
      (by decide) ⟨[kMen], [hMe, hN, hShi], [], [], 3, none⟩ (by decide)
      2 (by decide) (by decide) (by decide)⟩

end Yomicord
